import Mathlib

/-!
Verification development for `reedsolomon.ts` (src/src/rs-codec.ts), a
TypeScript port of the ZXing Reed-Solomon codec over GF(2^8).

The source is shallowly embedded: `Int32Array` buffers become `List Nat`
(all verified claims restrict entries to byte values `< 256`, matching the
spec `byte[0,255]` interface); exceptions become `Except String`;
the `while` loops of polynomial division and of the extended Euclidean
algorithm, which the source terminates only by field-algebraic facts,
are given explicit fuel large enough that (as proved below for the
canonical fields) the fuel is never exhausted on the paths the theorems
traverse.  Polynomial coefficient lists are most-significant-degree
first, exactly as in the source.
-/

namespace RS

/-! ## Galois field construction (class Generic_GF) -/

/-- One step of the `exp_table` construction loop:
`x *= 2; if (x >= size) { x ^= primitive; x &= size - 1; }`. -/
def gf_double (primitive size x : Nat) : Nat :=
  if size ≤ 2 * x then (2 * x ^^^ primitive) &&& (size - 1) else 2 * x

/-- The `exp_table` built by the `Generic_GF` constructor: starting from
`x = 1`, entry `i` is `x` after `i` doubling steps; `size` entries. -/
def mk_exp_table (primitive size : Nat) : List Nat :=
  (List.range size).foldl
    (fun (acc : List Nat × Nat) _ =>
      (acc.1 ++ [acc.2], gf_double primitive size acc.2))
    ([], 1) |>.1

/-- The `log_table` built by the constructor:
`for (i < size - 1) log_table[exp_table[i]] = i` over a zero-initialized
`Int32Array(size)`. -/
def mk_log_table (exp_t : List Nat) (size : Nat) : List Nat :=
  (List.range (size - 1)).foldl
    (fun acc i => acc.set (exp_t.getD i 0) i)
    (List.replicate size 0)

/-- The data of a constructed `Generic_GF` instance. -/
structure Generic_GF where
  primitive : Nat
  size : Nat
  generator_base : Nat
  exp_table : List Nat
  log_table : List Nat
deriving DecidableEq

/-- Source `new Generic_GF(primitive, size, generator_base)`. -/
def mk_GF (primitive size generator_base : Nat) : Generic_GF :=
  let e := mk_exp_table primitive size
  { primitive := primitive, size := size, generator_base := generator_base
    exp_table := e, log_table := mk_log_table e size }

/-- Source `GF_DATA_MATRIX_256()`: primitive 0x012D, size 256, generator base 1. -/
def GF_DM : Generic_GF := mk_GF 0x12D 256 1

/-- Source `GF_QR_CODE_256()`: primitive 0x011D, size 256, generator base 0. -/
def GF_QR : Generic_GF := mk_GF 0x11D 256 0

/-- Source `Generic_GF.add_or_subtract(a, b)`: bitwise XOR. -/
def gf_add (a b : Nat) : Nat := a ^^^ b

/-- Source `Generic_GF.exp(a)`: `exp_table[a]`.  All verified uses are in range;
the out-of-range default stands in for a typed-array read outside the
table, which no verified claim exercises. -/
def gf_exp (F : Generic_GF) (a : Nat) : Nat := F.exp_table.getD a 0

/-- Source `Generic_GF.log(a)` table lookup (the source throws on `a == 0`;
each call site below guards that case explicitly, as the source does). -/
def gf_log (F : Generic_GF) (a : Nat) : Nat := F.log_table.getD a 0

/-- Source `Generic_GF.multiply(a, b)`. -/
def gf_mul (F : Generic_GF) (a b : Nat) : Nat :=
  if a = 0 ∨ b = 0 then 0
  else gf_exp F ((gf_log F a + gf_log F b) % (F.size - 1))

/-- Source `Generic_GF.inverse(a)` for `a ≠ 0`: `exp_table[size - log_table[a] - 1]`
(the source throws on `a == 0`; call sites guard it). -/
def gf_inv (F : Generic_GF) (a : Nat) : Nat :=
  gf_exp F (F.size - gf_log F a - 1)

/-! ## Polynomials (class Generic_GF_Poly)

A polynomial is its coefficient list, most-significant-degree first.
`normalize` is the stripping of leading zero coefficients.  The
constructor also throws `IllegalArgumentException` on an empty
coefficient array; the one call site reachable with an empty list is
`decode` on an empty buffer, where that throw is modelled by an explicit
check, and every other call site below passes a nonempty list. -/

/-- Normalization done by the `Generic_GF_Poly` constructor: if the list has more than one entry
and a leading zero, drop leading zeros; if all were zero the polynomial
is `[0]`. -/
def normalize (l : List Nat) : List Nat :=
  if 1 < l.length ∧ l.headD 1 = 0 then
    if (l.dropWhile (· = 0)).isEmpty then [0] else l.dropWhile (· = 0)
  else l

/-- Source `Generic_GF_Poly.degree`: coefficient count minus one. -/
def degree (l : List Nat) : Nat := l.length - 1

/-- Source `Generic_GF_Poly.is_zero()`: the first stored coefficient is 0
(an empty list reads `undefined`, which is not `=== 0`). -/
def is_zero (l : List Nat) : Bool := l.headD 1 = 0

/-- Source `Generic_GF_Poly.get_coefficient(degree)`:
`coefficients[coefficients.length - 1 - degree]`.  A typed-array read at a
canonical numeric index outside `[0, length)` yields `undefined`, modelled
as `none`. -/
def get_coefficient (l : List Nat) (d : Int) : Option Nat :=
  let idx : Int := (l.length : Int) - 1 - d
  if 0 ≤ idx ∧ idx < (l.length : Int) then some (l.getD idx.toNat 0) else none

/-- Leading stored coefficient, i.e. `get_coefficient(degree)`; every use
below is on a nonempty list, where the read is in range. -/
def lead (l : List Nat) : Nat := l.headD 0

/-- Constant coefficient, i.e. `get_coefficient(0)`; in range for
nonempty lists. -/
def const_coeff (l : List Nat) : Nat := l.getD (l.length - 1) 0

/-- Source method `Generic_GF_Poly.evaluate_at(a)` with its three cases:
`a == 0` returns the constant coefficient, `a == 1` XORs all
coefficients, otherwise Horner evaluation from the leading coefficient. -/
def evaluate_at (F : Generic_GF) (l : List Nat) (a : Nat) : Nat :=
  if a = 0 then const_coeff l
  else if a = 1 then l.foldl (fun r c => gf_add r c) 0
  else
    match l with
    | [] => 0
    | h :: t => t.foldl (fun r c => gf_add (gf_mul F a r) c) h

/-- Source `Generic_GF_Poly.add_or_subtract(other)`.  The optional `buf`
parameter of the source is a storage-reuse optimization whose writes
never corrupt a value before it is read, so the functional result is the
same and it is omitted here.  (The same-field check of the source is vacuous
in this development, which fixes one field per computation.) -/
def add_poly (p q : List Nat) : List Nat :=
  if is_zero p then q
  else if is_zero q then p
  else
    let s := if q.length < p.length then q else p
    let l := if q.length < p.length then p else q
    let ld := l.length - s.length
    normalize (l.take ld ++ List.zipWith gf_add s (l.drop ld))

/-- Inner loop of `multiply_poly`:
`for (j) product[i+j] ^= multiply(a_coeff, b[j])`, with `k` the running
write index `i + j`. -/
def conv_inner (F : Generic_GF) (prod : List Nat) (ai : Nat) :
    List Nat → Nat → List Nat
  | [], _ => prod
  | bj :: rest, k =>
      conv_inner F (prod.set k (prod.getD k 0 ^^^ gf_mul F ai bj)) ai rest (k + 1)

/-- Outer loop of `multiply_poly`: iterate `conv_inner` over the
coefficients of `a`, with `i` the running outer index. -/
def conv_outer (F : Generic_GF) (prod : List Nat) :
    List Nat → List Nat → Nat → List Nat
  | [], _, _ => prod
  | ai :: rest, b, i => conv_outer F (conv_inner F prod ai b i) rest b (i + 1)

/-- Source `Generic_GF_Poly.multiply_poly(other)`: zero short-circuits, then the
full convolution into a zero-initialized product array, then the
constructor normalization. -/
def mul_poly (F : Generic_GF) (p q : List Nat) : List Nat :=
  if is_zero p ∨ is_zero q then [0]
  else normalize
    (conv_outer F (List.replicate (p.length + q.length - 1) 0) p q 0)

/-- Source `Generic_GF_Poly.multiply_scalar(scalar)`. -/
def mul_scalar (F : Generic_GF) (p : List Nat) (s : Nat) : List Nat :=
  if s = 0 then [0]
  else if s = 1 then p
  else normalize (p.map (fun c => gf_mul F c s))

/-- Source `Generic_GF_Poly.multiply_by_monomial(degree, coefficient)` (the
nonnegative-degree check is enforced by the `Nat` degree; every source
call site passes a nonnegative degree). -/
def mul_mono (F : Generic_GF) (p : List Nat) (d c : Nat) : List Nat :=
  if c = 0 then [0]
  else normalize (p.map (fun x => gf_mul F x c) ++ List.replicate d 0)

/-- Source `Generic_GF.build_monomial(degree, coefficient)`. -/
def build_monomial (F : Generic_GF) (d c : Nat) : List Nat :=
  if c = 0 then [0] else normalize (c :: List.replicate d 0)

/-- One iteration of the `divide` loop body: cancel the leading term of
the remainder against that of the divisor and accumulate the quotient monomial. -/
def divide_step (F : Generic_GF) (g : List Nat) (inv_lead : Nat)
    (qr : List Nat × List Nat) : List Nat × List Nat :=
  let dd := degree qr.2 - degree g
  let scale := gf_mul F (lead qr.2) inv_lead
  (add_poly qr.1 (build_monomial F dd scale),
   add_poly qr.2 (mul_mono F g dd scale))

/-- The `divide` loop
`while (remainder.degree >= other.degree && !remainder.is_zero())`,
with fuel; the fuel passed by `divide` is proved sufficient for the
canonical fields. -/
def divide_loop (F : Generic_GF) (g : List Nat) (inv_lead : Nat) :
    Nat → List Nat × List Nat → List Nat × List Nat
  | 0, qr => qr
  | fuel + 1, qr =>
      if degree g ≤ degree qr.2 ∧ ¬ is_zero qr.2 then
        divide_loop F g inv_lead fuel (divide_step F g inv_lead qr)
      else qr

/-- Source `Generic_GF_Poly.divide(other)`: returns `(quotient, remainder)`;
fails on a zero divisor, and on a zero divisor leading coefficient
(where the `inverse` of the source would throw). -/
def divide (F : Generic_GF) (p g : List Nat) :
    Except String (List Nat × List Nat) :=
  if is_zero g then .error "Divide by 0"
  else if lead g = 0 then .error "ArithmeticException()"
  else .ok (divide_loop F g (gf_inv F (lead g)) p.length ([0], p))

/-! ## Encoder (class RS_Encoder) -/

/-- Source `RS_Encoder.build_generator(degree)` unrolled to its recurrence: the
cache is seeded with the degree-0 generator `[1]`, and
`generator(d) = generator(d-1) * (x + exp(d - 1 + generator_base))`. -/
def generator (F : Generic_GF) : Nat → List Nat
  | 0 => [1]
  | d + 1 => mul_poly F (generator F d) [1, gf_exp F (d + F.generator_base)]

/-- Source `Int32Array.prototype.set(xs, off)` on a list: overwrite the entries
at positions `[off, off + xs.length)`. -/
def write_at (buf : List Nat) (off : Nat) (xs : List Nat) : List Nat :=
  buf.take off ++ xs ++ buf.drop (off + xs.length)

/-- Source `RS_Encoder.encode(data, ec_bytes)`: systematic Reed-Solomon
encoding.  Returns the whole buffer after the in-place parity write. -/
def encode (F : Generic_GF) (data : List Nat) (ec_bytes : Nat) :
    Except String (List Nat) :=
  if ec_bytes = 0 then .error "No error correction bytes"
  else if data.length ≤ ec_bytes then .error "No data bytes provided"
  else
    let data_bytes := data.length - ec_bytes
    let info := normalize (data.take data_bytes)
    let info2 := mul_mono F info ec_bytes 1
    match divide F info2 (generator F ec_bytes) with
    | .error e => .error e
    | .ok qr =>
        let remainder := qr.2
        let nz := ec_bytes - remainder.length
        .ok (write_at (write_at data data_bytes (List.replicate nz 0))
              (data_bytes + nz) remainder)

/-! ## Decoder (class RS_Decoder) -/

/-- The syndrome values `evaluate_at(exp(i + generator_base))` for
`i ∈ [0, ec_bytes)`, in computation order (index `i` of this list is
stored by the source at array index `ec_bytes - 1 - i`, so the stored
syndrome coefficient array is the reversal of this list). -/
def syndrome_values (F : Generic_GF) (poly : List Nat) (ec : Nat) : List Nat :=
  (List.range ec).map (fun i => evaluate_at F poly (gf_exp F (i + F.generator_base)))

/-- Inner division loop of `run_euclidean_algorithm`
(`while (r.degree >= r_last.degree && !r.is_zero())`), with fuel. -/
def eea_div_loop (F : Generic_GF) (r_last : List Nat) (dlt_inv : Nat) :
    Nat → List Nat × List Nat → List Nat × List Nat
  | 0, qr => qr
  | fuel + 1, qr =>
      if degree r_last ≤ degree qr.2 ∧ ¬ is_zero qr.2 then
        let dd := degree qr.2 - degree r_last
        let scale := gf_mul F (lead qr.2) dlt_inv
        eea_div_loop F r_last dlt_inv fuel
          (add_poly qr.1 (build_monomial F dd scale),
           add_poly qr.2 (mul_mono F r_last dd scale))
      else qr

/-- Outer loop of `run_euclidean_algorithm`
(`while (r.degree >= R / 2)`; the `R / 2` of the source is exact JavaScript
division, modelled as `R ≤ 2 * degree r`), with fuel.  State:
`(r_last, r, t_last, t)`. -/
def eea_loop (F : Generic_GF) (R : Nat) :
    Nat → List Nat × List Nat × List Nat × List Nat →
    Except String (List Nat × List Nat × List Nat × List Nat)
  | 0, _ => .error "fuel exhausted"
  | fuel + 1, (r_last, r, t_last, t) =>
      if R ≤ 2 * degree r then
        let r_last_last := r_last
        let t_last_last := t_last
        if is_zero r then .error "r_{i-1} was zero"
        else if lead r = 0 then .error "ArithmeticException()"
        else
          let dlt_inv := gf_inv F (lead r)
          let qr := eea_div_loop F r dlt_inv (r_last_last.length + 1)
            ([0], r_last_last)
          let t2 := add_poly (mul_poly F qr.1 t) t_last_last
          if degree r ≤ degree qr.2 then
            .error "Division algorithm failed to reduce polynomial?"
          else eea_loop F R fuel (r, qr.2, t, t2)
      else .ok (r_last, r, t_last, t)

/-- Source `RS_Decoder.run_euclidean_algorithm(a, b, R)`: returns
`(sigma, omega)`. -/
def run_euclidean (F : Generic_GF) (a b : List Nat) (R : Nat) :
    Except String (List Nat × List Nat) :=
  let a2 := if degree a < degree b then b else a
  let b2 := if degree a < degree b then a else b
  match eea_loop F R (degree b2 + 2) (a2, b2, [0], [1]) with
  | .error e => .error e
  | .ok st =>
      let r := st.2.1
      let t := st.2.2.2
      let sigma_tilde_at_zero := const_coeff t
      if sigma_tilde_at_zero = 0 then .error "sigmaTilde(0) was zero"
      else
        let inv := gf_inv F sigma_tilde_at_zero
        .ok (mul_scalar F t inv, mul_scalar F r inv)

/-- Source `RS_Decoder.find_error_locations(error_locator)`: the degree-1
shortcut, else a Chien search over the nonzero field elements that stops
after `num_errors` roots, failing when fewer roots exist. -/
def find_error_locations (F : Generic_GF) (sigma : List Nat) :
    Except String (List Nat) :=
  let num_errors := degree sigma
  if num_errors = 1 then .ok [(get_coefficient sigma 1).getD 0]
  else
    let roots := (((List.range F.size).drop 1).filter
      (fun i => decide (evaluate_at F sigma i = 0))).take num_errors
    if roots.length ≠ num_errors then
      .error "Error locator degree does not match number of roots"
    else .ok (roots.map (gf_inv F))

/-- Source `RS_Decoder.find_error_magnitudes(error_evaluator, error_locations)`
(the Forney formula); fails where the `inverse` of the source would throw. -/
def find_error_magnitudes (F : Generic_GF) (omega locs : List Nat) :
    Except String (List Nat) :=
  locs.enum.mapM (fun iloc =>
    if iloc.2 = 0 then .error "ArithmeticException()"
    else
      let xi_inv := gf_inv F iloc.2
      let denominator := locs.enum.foldl
        (fun d jl => if jl.1 = iloc.1 then d
          else gf_mul F d (gf_add 1 (gf_mul F jl.2 xi_inv))) 1
      if denominator = 0 then .error "ArithmeticException()"
      else
        let m := gf_mul F (evaluate_at F omega xi_inv) (gf_inv F denominator)
        .ok (if F.generator_base ≠ 0 then gf_mul F m xi_inv else m))

/-- The correction loop of `decode`: for each located error, XOR the
magnitude into `received.length - 1 - log(location)`, failing when that
position is negative (and where the `log(0)` of the source would throw). -/
def apply_corrections (F : Generic_GF) (received : List Nat) :
    List (Nat × Nat) → Except String (List Nat)
  | [] => .ok received
  | (loc, mag) :: rest =>
      if loc = 0 then .error "IllegalArgumentException()"
      else if received.length ≤ gf_log F loc then .error "Bad error location"
      else
        let pos := received.length - 1 - gf_log F loc
        apply_corrections F (received.set pos (received.getD pos 0 ^^^ mag)) rest

/-- Source `RS_Decoder.decode(received, ec_bytes)`: in-place error correction;
returns the whole buffer.  The `Generic_GF_Poly` constructor throws
`IllegalArgumentException` on an empty coefficient array, so an empty
`received` fails before any syndrome is computed; the leading check
models that throw.  The all-zero-syndromes early return is the path the
proved theorems traverse. -/
def decode (F : Generic_GF) (received : List Nat) (ec_bytes : Nat) :
    Except String (List Nat) :=
  if received.isEmpty then .error "IllegalArgumentException()" else
  let poly := normalize received
  let synd := syndrome_values F poly ec_bytes
  if synd.all (· = 0) then .ok received
  else
    let syndrome := normalize synd.reverse
    match run_euclidean F (build_monomial F ec_bytes 1) syndrome ec_bytes with
    | .error e => .error e
    | .ok so =>
        match find_error_locations F so.1 with
        | .error e => .error e
        | .ok locs =>
            match find_error_magnitudes F so.2 locs with
            | .error e => .error e
            | .ok mags => apply_corrections F received (locs.zip mags)

/-! ## Specification-side definitions used by the proofs -/

/-- One doubling step of the table construction, specialized to a
size-256 field (`gf_double primitive 256`); the linearity of this map
over XOR is the root of the distributive law of the table-based field. -/
def xtime (P v : Nat) : Nat :=
  if 256 ≤ 2 * v then (2 * v ^^^ P) &&& 255 else 2 * v

/-- Plain Horner evaluation of a coefficient list (most significant
first) at a point, with no special cases; proved below to agree with
`evaluate_at` on byte coefficient lists. -/
def horner (F : Generic_GF) (l : List Nat) (z : Nat) : Nat :=
  l.foldl (fun r c => gf_add (gf_mul F z r) c) 0

/-- All entries of a buffer are byte values. -/
def bytes (l : List Nat) : Prop := ∀ x ∈ l, x < 256

instance (l : List Nat) : Decidable (bytes l) := by
  unfold bytes; infer_instance

/-- Well-formedness invariant that the `Generic_GF_Poly` constructor
establishes: nonempty, and no leading zero unless the list is `[0]`. -/
def wf (l : List Nat) : Prop := l ≠ [] ∧ (1 < l.length → l.headD 0 ≠ 0)

/-- Closed form of the convolution loops of `multiply_poly` against a
monic linear polynomial `[1, c]`, with the carry running between outer
iterations. -/
def lin_acc (F : Generic_GF) (c : Nat) : List Nat → Nat → List Nat
  | [], carry => [carry]
  | a0 :: rest, carry =>
      (carry ^^^ gf_mul F a0 1) :: lin_acc F c rest (gf_mul F a0 c)

/-- The finitely checkable facts about a constructed size-256 field from
which the whole field algebra follows; decided below for the two
canonical fields. -/
def good_field (F : Generic_GF) : Prop :=
  F.size = 256 ∧ F.generator_base ≤ 1 ∧
  F.exp_table.length = 256 ∧ F.log_table.length = 256 ∧
  (∀ i, i < 255 → gf_log F (gf_exp F i) = i) ∧
  (∀ a, a < 256 → 1 ≤ a → gf_exp F (gf_log F a) = a) ∧
  (∀ i, i < 256 → 1 ≤ gf_exp F i ∧ gf_exp F i < 256) ∧
  (∀ a, a < 256 → gf_log F a < 255) ∧
  gf_exp F 0 = 1 ∧ gf_exp F 255 = 1 ∧
  (∀ i, i < 255 → gf_exp F ((i + 1) % 255) = xtime F.primitive (gf_exp F i))

instance (F : Generic_GF) : Decidable (good_field F) := by
  unfold good_field; infer_instance

end RS

namespace RS

/-! ## Bitwise groundwork: linearity of the doubling step -/

theorem two_mul_xor (b c : Nat) : 2 * (b ^^^ c) = 2 * b ^^^ 2 * c := by
  have h : ∀ x : Nat, 2 * x = x <<< 1 := fun x => by
    rw [Nat.shiftLeft_eq, Nat.pow_one, Nat.mul_comm]
  rw [h, h, h]
  apply Nat.eq_of_testBit_eq
  intro i
  simp only [Nat.testBit_shiftLeft, Nat.testBit_xor]
  by_cases h1 : 1 ≤ i <;> simp [h1]

theorem testBit7_eq (x : Nat) (hx : x < 256) : x.testBit 7 = decide (128 ≤ x) := by
  rw [Nat.testBit_to_div_mod, decide_eq_decide]
  omega

theorem xor_pair_cancel (x y p : Nat) : (x ^^^ p) ^^^ (y ^^^ p) = x ^^^ y := by
  rw [Nat.xor_assoc, Nat.xor_comm y p, Nat.xor_cancel_left]

theorem xor_right_swap (x p y : Nat) : (x ^^^ p) ^^^ y = (x ^^^ y) ^^^ p := by
  rw [Nat.xor_assoc, Nat.xor_comm p y, ← Nat.xor_assoc]

theorem xor_mix (x y s t : Nat) : (x ^^^ y) ^^^ (s ^^^ t) = (x ^^^ s) ^^^ (y ^^^ t) := by
  rw [Nat.xor_assoc x s (y ^^^ t), Nat.xor_comm y t, ← Nat.xor_assoc s t y,
    Nat.xor_comm (s ^^^ t) y, ← Nat.xor_assoc x y (s ^^^ t)]

theorem xor_lt_256 {b c : Nat} (hb : b < 256) (hc : c < 256) : b ^^^ c < 256 :=
  Nat.xor_lt_two_pow (n := 8) hb hc

theorem xtime_xor (P : Nat) {b c : Nat} (hb : b < 256) (hc : c < 256) :
    xtime P (b ^^^ c) = xtime P b ^^^ xtime P c := by
  have hbc : b ^^^ c < 256 := xor_lt_256 hb hc
  have e : (b ^^^ c).testBit 7 = xor (b.testBit 7) (c.testBit 7) := Nat.testBit_xor b c 7
  rw [testBit7_eq _ hbc, testBit7_eq _ hb, testBit7_eq _ hc] at e
  have hmask : ∀ x : Nat, x &&& 255 = x % 256 := fun x => Nat.and_pow_two_sub_one_eq_mod x 8
  unfold xtime
  by_cases h1 : 128 ≤ b <;> by_cases h2 : 128 ≤ c <;> simp [h1, h2] at e
  · rw [if_neg (by omega), if_pos (by omega), if_pos (by omega)]
    rw [← Nat.and_xor_distrib_right, xor_pair_cancel, ← two_mul_xor, hmask,
      Nat.mod_eq_of_lt (by omega)]
  · rw [if_pos (by omega), if_pos (by omega), if_neg (by omega)]
    conv_rhs => rw [show 2 * c = (2 * c) &&& 255 from by rw [hmask]; omega]
    rw [← Nat.and_xor_distrib_right, two_mul_xor, xor_right_swap]
  · rw [if_pos (by omega), if_neg (by omega), if_pos (by omega)]
    conv_rhs => rw [show 2 * b = (2 * b) &&& 255 from by rw [hmask]; omega]
    rw [← Nat.and_xor_distrib_right]
    congr 1
    rw [two_mul_xor, Nat.xor_assoc]
  · rw [if_neg (by omega), if_neg (by omega), if_neg (by omega), two_mul_xor]

theorem xtime_lt (P : Nat) (v : Nat) (hv : v < 256) : xtime P v < 256 := by
  unfold xtime
  split
  · have h : (2 * v ^^^ P) &&& 255 = (2 * v ^^^ P) % 256 :=
      Nat.and_pow_two_sub_one_eq_mod (2 * v ^^^ P) 8
    omega
  · omega

theorem xtime_zero (P : Nat) : xtime P 0 = 0 := by simp [xtime]

/-! ## The two canonical fields satisfy the table facts -/

set_option maxRecDepth 10000 in
theorem dm_good : good_field GF_DM := by decide

set_option maxRecDepth 10000 in
theorem qr_good : good_field GF_QR := by decide

end RS

namespace RS

/-! ## Field algebra derived from the table facts -/

theorem xor_rot (a c e : Nat) : (a ^^^ c) ^^^ e = (e ^^^ c) ^^^ a := by
  rw [xor_right_swap a c e, xor_right_swap e c a, Nat.xor_comm a e]

theorem gfp_size {F : Generic_GF} (h : good_field F) : F.size = 256 := h.1

theorem gfp_elen {F : Generic_GF} (h : good_field F) : F.exp_table.length = 256 :=
  h.2.2.1

theorem gfp_llen {F : Generic_GF} (h : good_field F) : F.log_table.length = 256 :=
  h.2.2.2.1

theorem gfp_log_exp {F : Generic_GF} (h : good_field F) :
    ∀ i, i < 255 → gf_log F (gf_exp F i) = i := h.2.2.2.2.1

theorem gfp_exp_log {F : Generic_GF} (h : good_field F) :
    ∀ a, a < 256 → 1 ≤ a → gf_exp F (gf_log F a) = a := h.2.2.2.2.2.1

theorem gfp_exp_bounds {F : Generic_GF} (h : good_field F) :
    ∀ i, i < 256 → 1 ≤ gf_exp F i ∧ gf_exp F i < 256 := h.2.2.2.2.2.2.1

theorem gfp_log_lt {F : Generic_GF} (h : good_field F) :
    ∀ a, a < 256 → gf_log F a < 255 := h.2.2.2.2.2.2.2.1

theorem gfp_exp_zero {F : Generic_GF} (h : good_field F) : gf_exp F 0 = 1 :=
  h.2.2.2.2.2.2.2.2.1

theorem gfp_exp_255 {F : Generic_GF} (h : good_field F) : gf_exp F 255 = 1 :=
  h.2.2.2.2.2.2.2.2.2.1

theorem gfp_exp_succ {F : Generic_GF} (h : good_field F) :
    ∀ i, i < 255 → gf_exp F ((i + 1) % 255) = xtime F.primitive (gf_exp F i) :=
  h.2.2.2.2.2.2.2.2.2.2

theorem exp_lt_256 {F : Generic_GF} (h : good_field F) (x : Nat) :
    gf_exp F x < 256 := by
  by_cases hx : x < 256
  · exact (gfp_exp_bounds h x hx).2
  · unfold gf_exp
    rw [List.getD_eq_default]
    · omega
    · rw [gfp_elen h]; omega

theorem log_lt_255 {F : Generic_GF} (h : good_field F) (x : Nat) :
    gf_log F x < 255 := by
  by_cases hx : x < 256
  · exact gfp_log_lt h x hx
  · unfold gf_log
    rw [List.getD_eq_default]
    · omega
    · rw [gfp_llen h]; omega

theorem mul_lt {F : Generic_GF} (h : good_field F) (a b : Nat) :
    gf_mul F a b < 256 := by
  unfold gf_mul
  split
  · omega
  · have hs := gfp_size h
    refine (gfp_exp_bounds h _ ?_).2
    have := Nat.mod_lt (gf_log F a + gf_log F b) (y := F.size - 1) (by omega)
    omega

theorem mul_pos {F : Generic_GF} (h : good_field F) {a b : Nat}
    (ha : a ≠ 0) (hb : b ≠ 0) : 1 ≤ gf_mul F a b := by
  unfold gf_mul
  rw [if_neg (by tauto)]
  have hs := gfp_size h
  refine (gfp_exp_bounds h _ ?_).1
  have := Nat.mod_lt (gf_log F a + gf_log F b) (y := F.size - 1) (by omega)
  omega

theorem gf_mul_zero_right (F : Generic_GF) (a : Nat) : gf_mul F a 0 = 0 := by
  simp [gf_mul]

theorem gf_mul_zero_left (F : Generic_GF) (b : Nat) : gf_mul F 0 b = 0 := by
  simp [gf_mul]

theorem gf_mul_comm (F : Generic_GF) (a b : Nat) : gf_mul F a b = gf_mul F b a := by
  by_cases ha : a = 0 <;> by_cases hb : b = 0 <;>
    simp [gf_mul, ha, hb, Nat.add_comm]

theorem mul_formula {F : Generic_GF} (h : good_field F) {a b : Nat}
    (ha : a ≠ 0) (hb : b ≠ 0) :
    gf_mul F a b = gf_exp F ((gf_log F a + gf_log F b) % 255) := by
  unfold gf_mul
  rw [if_neg (by tauto), gfp_size h]

theorem log_mul {F : Generic_GF} (h : good_field F) {a b : Nat}
    (ha : a ≠ 0) (hb : b ≠ 0) :
    gf_log F (gf_mul F a b) = (gf_log F a + gf_log F b) % 255 := by
  rw [mul_formula h ha hb]
  exact gfp_log_exp h _ (Nat.mod_lt _ (by omega))

theorem log_one {F : Generic_GF} (h : good_field F) : gf_log F 1 = 0 := by
  have := gfp_log_exp h 0 (by omega)
  rwa [gfp_exp_zero h] at this

theorem gf_one_mul {F : Generic_GF} (h : good_field F) {b : Nat} (hb : b < 256) :
    gf_mul F 1 b = b := by
  by_cases hb0 : b = 0
  · simp [hb0, gf_mul_zero_right]
  · rw [mul_formula h (by omega) hb0, log_one h,
      Nat.zero_add, Nat.mod_eq_of_lt (gfp_log_lt h b hb)]
    exact gfp_exp_log h b hb (by omega)

theorem gf_mul_one {F : Generic_GF} (h : good_field F) {b : Nat} (hb : b < 256) :
    gf_mul F b 1 = b := by
  rw [gf_mul_comm]; exact gf_one_mul h hb

theorem gf_mul_assoc {F : Generic_GF} (h : good_field F) (a b c : Nat) :
    gf_mul F (gf_mul F a b) c = gf_mul F a (gf_mul F b c) := by
  by_cases ha : a = 0
  · simp [ha, gf_mul_zero_left]
  by_cases hb : b = 0
  · simp [hb, gf_mul_zero_left, gf_mul_zero_right]
  by_cases hc : c = 0
  · simp [hc, gf_mul_zero_right]
  have hab : gf_mul F a b ≠ 0 := by have := mul_pos h ha hb; omega
  have hbc : gf_mul F b c ≠ 0 := by have := mul_pos h hb hc; omega
  rw [mul_formula h hab hc, mul_formula h ha hbc, log_mul h ha hb, log_mul h hb hc]
  congr 1
  omega

theorem inv_lt {F : Generic_GF} (h : good_field F) (a : Nat) : gf_inv F a < 256 :=
  exp_lt_256 h _

theorem inv_pos {F : Generic_GF} (h : good_field F) (a : Nat) : 1 ≤ gf_inv F a := by
  unfold gf_inv
  have hl := log_lt_255 h a
  exact (gfp_exp_bounds h _ (by rw [gfp_size h]; omega)).1

theorem mul_inv_cancel {F : Generic_GF} (h : good_field F) {a : Nat}
    (ha1 : 1 ≤ a) (ha2 : a < 256) : gf_mul F a (gf_inv F a) = 1 := by
  have hl := gfp_log_lt h a ha2
  have hinv : gf_inv F a = gf_exp F (255 - gf_log F a) := by
    unfold gf_inv; rw [gfp_size h]; congr 1; omega
  by_cases h0 : gf_log F a = 0
  · have haa : a = 1 := by
      have := gfp_exp_log h a ha2 ha1
      rw [h0, gfp_exp_zero h] at this
      omega
    rw [hinv, h0]
    simp only [Nat.sub_zero]
    rw [gfp_exp_255 h, haa]
    exact gf_one_mul h (by omega)
  · have hle : 255 - gf_log F a < 255 := by omega
    have hinvpos : gf_inv F a ≠ 0 := by have := inv_pos h a; omega
    rw [mul_formula h (by omega) hinvpos, hinv,
      gfp_log_exp h _ hle]
    have : (gf_log F a + (255 - gf_log F a)) % 255 = 0 := by omega
    rw [this, gfp_exp_zero h]

theorem scale_cancel {F : Generic_GF} (h : good_field F) {g r : Nat}
    (hg1 : 1 ≤ g) (hg2 : g < 256) (hr : r < 256) :
    gf_mul F g (gf_mul F r (gf_inv F g)) = r := by
  rw [gf_mul_comm F r (gf_inv F g), ← gf_mul_assoc h, mul_inv_cancel h hg1 hg2]
  exact gf_one_mul h hr

theorem mul_exp_formula {F : Generic_GF} (h : good_field F) {k v : Nat}
    (hk : k < 255) (hv : v ≠ 0) :
    gf_mul F (gf_exp F k) v = gf_exp F ((k + gf_log F v) % 255) := by
  have he : gf_exp F k ≠ 0 := by
    have := (gfp_exp_bounds h k (by omega)).1; omega
  rw [mul_formula h he hv, gfp_log_exp h k hk]

theorem xtime_iter_zero (P k : Nat) : (xtime P)^[k] 0 = 0 := by
  induction k with
  | zero => rfl
  | succ n ih => rw [Function.iterate_succ_apply, xtime_zero, ih]

theorem xtime_iter_lt (P k : Nat) {v : Nat} (hv : v < 256) :
    (xtime P)^[k] v < 256 := by
  induction k generalizing v with
  | zero => exact hv
  | succ n ih => rw [Function.iterate_succ_apply]; exact ih (xtime_lt P v hv)

theorem xtime_iter_xor (P k : Nat) {b c : Nat} (hb : b < 256) (hc : c < 256) :
    (xtime P)^[k] (b ^^^ c) = (xtime P)^[k] b ^^^ (xtime P)^[k] c := by
  induction k generalizing b c with
  | zero => rfl
  | succ n ih =>
      rw [Function.iterate_succ_apply, Function.iterate_succ_apply,
        Function.iterate_succ_apply, xtime_xor P hb hc]
      exact ih (xtime_lt P b hb) (xtime_lt P c hc)

theorem exp_iter {F : Generic_GF} (h : good_field F) :
    ∀ k, k < 255 → ∀ v, v < 256 →
      gf_mul F (gf_exp F k) v = (xtime F.primitive)^[k] v := by
  intro k
  induction k with
  | zero =>
      intro _ v hv
      rw [gfp_exp_zero h]
      exact gf_one_mul h hv
  | succ n ih =>
      intro hk v hv
      by_cases hv0 : v = 0
      · rw [hv0, gf_mul_zero_right, xtime_iter_zero]
      · rw [mul_exp_formula h hk hv0, Function.iterate_succ_apply',
          ← ih (by omega) v hv, mul_exp_formula h (by omega) hv0,
          ← gfp_exp_succ h _ (Nat.mod_lt _ (by omega))]
        congr 1
        omega

theorem mul_xor {F : Generic_GF} (h : good_field F) {a b c : Nat}
    (ha : a < 256) (hb : b < 256) (hc : c < 256) :
    gf_mul F a (b ^^^ c) = gf_mul F a b ^^^ gf_mul F a c := by
  by_cases ha0 : a = 0
  · simp [ha0, gf_mul_zero_left]
  · have hl := gfp_log_lt h a ha
    have ha2 := gfp_exp_log h a ha (by omega)
    rw [← ha2, exp_iter h _ hl _ (xor_lt_256 hb hc), exp_iter h _ hl _ hb,
      exp_iter h _ hl _ hc]
    exact xtime_iter_xor _ _ hb hc

theorem xor_mul {F : Generic_GF} (h : good_field F) {a b c : Nat}
    (ha : a < 256) (hb : b < 256) (hc : c < 256) :
    gf_mul F (b ^^^ c) a = gf_mul F b a ^^^ gf_mul F c a := by
  rw [gf_mul_comm F _ a, gf_mul_comm F b a, gf_mul_comm F c a]
  exact mul_xor h ha hb hc


/-! ## Horner evaluation lemmas -/

theorem horner_nil (F : Generic_GF) (z : Nat) : horner F [] z = 0 := rfl

theorem horner_cons (F : Generic_GF) (h : Nat) (t : List Nat) (z : Nat) :
    horner F (h :: t) z = t.foldl (fun r c => gf_add (gf_mul F z r) c) h := by
  simp [horner, gf_add, gf_mul_zero_right]

theorem foldl_step_lt {F : Generic_GF} (hF : good_field F) (z : Nat) :
    ∀ (l : List Nat) (acc : Nat), bytes l → acc < 256 →
      l.foldl (fun r c => gf_add (gf_mul F z r) c) acc < 256 := by
  intro l
  induction l with
  | nil => intro acc _ hacc; exact hacc
  | cons c t ih =>
      intro acc hb hacc
      exact ih _ (fun x hx => hb x (List.mem_cons_of_mem c hx))
        (xor_lt_256 (mul_lt hF z acc) (hb c (List.mem_cons_self c t)))

theorem horner_lt {F : Generic_GF} (hF : good_field F) {l : List Nat}
    (hb : bytes l) (z : Nat) : horner F l z < 256 :=
  foldl_step_lt hF z l 0 hb (by omega)

theorem mulz_iter_zero (F : Generic_GF) (z n : Nat) :
    (gf_mul F z ·)^[n] 0 = 0 := by
  induction n with
  | zero => rfl
  | succ k ih => rw [Function.iterate_succ_apply, gf_mul_zero_right]; exact ih

theorem mulz_iter_lt {F : Generic_GF} (hF : good_field F) (z n : Nat)
    {x : Nat} (hx : x < 256) : (gf_mul F z ·)^[n] x < 256 := by
  induction n generalizing x with
  | zero => exact hx
  | succ k ih =>
      rw [Function.iterate_succ_apply]
      exact ih (mul_lt hF z x)

theorem mulz_iter_xor {F : Generic_GF} (hF : good_field F) {z : Nat}
    (hz : z < 256) (n : Nat) {x y : Nat} (hx : x < 256) (hy : y < 256) :
    (gf_mul F z ·)^[n] (x ^^^ y) =
      (gf_mul F z ·)^[n] x ^^^ (gf_mul F z ·)^[n] y := by
  induction n generalizing x y with
  | zero => rfl
  | succ k ih =>
      rw [Function.iterate_succ_apply, Function.iterate_succ_apply,
        Function.iterate_succ_apply, mul_xor hF hz hx hy]
      exact ih (mul_lt hF z x) (mul_lt hF z y)

theorem mulz_iter_mul {F : Generic_GF} (hF : good_field F) (z n x w : Nat) :
    (gf_mul F z ·)^[n] (gf_mul F x w) = gf_mul F ((gf_mul F z ·)^[n] x) w := by
  induction n generalizing x with
  | zero => rfl
  | succ k ih =>
      rw [Function.iterate_succ_apply, Function.iterate_succ_apply,
        ← gf_mul_assoc hF]
      exact ih _

theorem foldl_split {F : Generic_GF} (hF : good_field F) {z : Nat} (hz : z < 256) :
    ∀ (v : List Nat) (acc : Nat), bytes v → acc < 256 →
      v.foldl (fun r c => gf_add (gf_mul F z r) c) acc =
        (gf_mul F z ·)^[v.length] acc ^^^
          v.foldl (fun r c => gf_add (gf_mul F z r) c) 0 := by
  intro v
  induction v with
  | nil =>
      intro acc _ _
      simp
  | cons c t ih =>
      intro acc hb hacc
      have hc : c < 256 := hb c (List.mem_cons_self c t)
      have hbt : bytes t := fun x hx => hb x (List.mem_cons_of_mem c hx)
      have h1 : (c :: t).foldl (fun r c => gf_add (gf_mul F z r) c) acc =
          t.foldl (fun r c => gf_add (gf_mul F z r) c) (gf_mul F z acc ^^^ c) := by
        simp [gf_add]
      have h2 : (c :: t).foldl (fun r c => gf_add (gf_mul F z r) c) 0 =
          t.foldl (fun r c => gf_add (gf_mul F z r) c) c := by
        simp [gf_add, gf_mul_zero_right]
      rw [h1, h2, ih _ (hbt) (xor_lt_256 (mul_lt hF z acc) hc), ih c hbt hc,
        mulz_iter_xor hF hz _ (mul_lt hF z acc) hc, List.length_cons,
        Function.iterate_succ_apply, Nat.xor_assoc]

theorem horner_append {F : Generic_GF} (hF : good_field F) {z : Nat}
    (hz : z < 256) {u v : List Nat} (hu : bytes u) (hv : bytes v) :
    horner F (u ++ v) z =
      (gf_mul F z ·)^[v.length] (horner F u z) ^^^ horner F v z := by
  unfold horner
  rw [List.foldl_append]
  exact foldl_split hF hz v _ hv (horner_lt hF hu z)

theorem horner_replicate_zero (F : Generic_GF) (n : Nat) (z : Nat) :
    horner F (List.replicate n 0) z = 0 := by
  induction n with
  | zero => rfl
  | succ k ih =>
      rw [List.replicate_succ]
      unfold horner at ih ⊢
      simpa [gf_add, gf_mul_zero_right] using ih

theorem foldl_zip {F : Generic_GF} (hF : good_field F) {z : Nat} (hz : z < 256) :
    ∀ (u v : List Nat) (a b : Nat), u.length = v.length → bytes u → bytes v →
      a < 256 → b < 256 →
      (List.zipWith gf_add u v).foldl (fun r c => gf_add (gf_mul F z r) c) (a ^^^ b) =
        u.foldl (fun r c => gf_add (gf_mul F z r) c) a ^^^
          v.foldl (fun r c => gf_add (gf_mul F z r) c) b := by
  intro u
  induction u with
  | nil =>
      intro v a b hlen _ _ _ _
      have : v = [] := List.eq_nil_of_length_eq_zero hlen.symm
      subst this
      rfl
  | cons u0 ut ih =>
      intro v a b hlen hu hv ha hb
      cases v with
      | nil => simp at hlen
      | cons v0 vt =>
          have hu0 : u0 < 256 := hu u0 (List.mem_cons_self _ _)
          have hv0 : v0 < 256 := hv v0 (List.mem_cons_self _ _)
          have hut : bytes ut := fun x hx => hu x (List.mem_cons_of_mem _ hx)
          have hvt : bytes vt := fun x hx => hv x (List.mem_cons_of_mem _ hx)
          rw [List.zipWith_cons_cons]
          have hstep : gf_add (gf_mul F z (a ^^^ b)) (gf_add u0 v0) =
              (gf_mul F z a ^^^ u0) ^^^ (gf_mul F z b ^^^ v0) := by
            unfold gf_add
            rw [mul_xor hF hz ha hb, xor_mix]
          simp only [List.foldl_cons, hstep]
          have := ih vt (gf_mul F z a ^^^ u0) (gf_mul F z b ^^^ v0)
            (by simpa using hlen) hut hvt
            (xor_lt_256 (mul_lt hF z a) hu0) (xor_lt_256 (mul_lt hF z b) hv0)
          rw [this]
          rfl

theorem horner_zip {F : Generic_GF} (hF : good_field F) {z : Nat} (hz : z < 256)
    {u v : List Nat} (hlen : u.length = v.length) (hu : bytes u) (hv : bytes v) :
    horner F (List.zipWith gf_add u v) z = horner F u z ^^^ horner F v z := by
  unfold horner
  have h0 : (0 : Nat) = 0 ^^^ 0 := rfl
  rw [h0]
  exact foldl_zip hF hz u v 0 0 hlen hu hv (by omega) (by omega)

theorem horner_map_mul {F : Generic_GF} (hF : good_field F) {z : Nat}
    (hz : z < 256) {c : Nat} (hc : c < 256) :
    ∀ (l : List Nat), bytes l →
      horner F (l.map (fun x => gf_mul F x c)) z = gf_mul F (horner F l z) c := by
  have aux : ∀ (l : List Nat) (acc : Nat), bytes l → acc < 256 →
      (l.map (fun x => gf_mul F x c)).foldl
          (fun r x => gf_add (gf_mul F z r) x) (gf_mul F acc c) =
        gf_mul F (l.foldl (fun r x => gf_add (gf_mul F z r) x) acc) c := by
    intro l
    induction l with
    | nil => intro acc _ _; rfl
    | cons l0 t ih =>
        intro acc hb hacc
        have hl0 : l0 < 256 := hb l0 (List.mem_cons_self _ _)
        have hbt : bytes t := fun x hx => hb x (List.mem_cons_of_mem _ hx)
        simp only [List.map_cons, List.foldl_cons]
        have hstep : gf_add (gf_mul F z (gf_mul F acc c)) (gf_mul F l0 c) =
            gf_mul F (gf_add (gf_mul F z acc) l0) c := by
          unfold gf_add
          rw [← gf_mul_assoc hF, xor_mul hF hc (mul_lt hF z acc) hl0]
        rw [hstep]
        exact ih _ hbt (xor_lt_256 (mul_lt hF z acc) hl0)
  intro l hb
  unfold horner
  have h0 : (0 : Nat) = gf_mul F 0 c := (gf_mul_zero_left F c).symm
  conv_lhs => rw [h0]
  exact aux l 0 hb (by omega)

theorem horner_dropWhile_zero (F : Generic_GF) (z : Nat) :
    ∀ l : List Nat, horner F (l.dropWhile (· = 0)) z = horner F l z := by
  intro l
  induction l with
  | nil => rfl
  | cons h t ih =>
      by_cases h0 : h = 0
      · subst h0
        rw [List.dropWhile_cons_of_pos (by simp)]
        rw [ih]
        unfold horner
        simp [gf_add, gf_mul_zero_right]
      · rw [List.dropWhile_cons_of_neg (by simp [h0])]

theorem horner_all_zero (F : Generic_GF) (z : Nat) {l : List Nat}
    (h : ∀ x ∈ l, x = 0) : horner F l z = 0 := by
  have : l.dropWhile (· = 0) = [] := List.dropWhile_eq_nil_iff.mpr (by simpa using h)
  rw [← horner_dropWhile_zero, this, horner_nil]

theorem horner_normalize (F : Generic_GF) (l : List Nat) (z : Nat) :
    horner F (normalize l) z = horner F l z := by
  unfold normalize
  split
  · split
    · next hemp =>
        rw [show horner F [0] z = 0 from by simp [horner, gf_add, gf_mul_zero_right]]
        exact (horner_all_zero F z (by
          intro x hx
          have := List.dropWhile_eq_nil_iff.mp (List.isEmpty_iff.mp hemp) x hx
          simpa using this)).symm
    · exact horner_dropWhile_zero F z l
  · rfl

/-! ## Structural lemmas: normalization, addition, monomial multiplication -/

theorem normalize_id {l : List Nat} (h : l.headD 1 ≠ 0) : normalize l = l := by
  unfold normalize
  rw [if_neg (by tauto)]

theorem normalize_bytes {l : List Nat} (hb : bytes l) : bytes (normalize l) := by
  unfold normalize
  split
  · split
    · intro x hx
      simp at hx
      omega
    · intro x hx
      exact hb x ((List.dropWhile_sublist _).mem hx)
  · exact hb

theorem normalize_ne_nil {l : List Nat} (h : l ≠ []) : normalize l ≠ [] := by
  unfold normalize
  split
  · split
    · simp
    · next hemp => simpa [List.isEmpty_iff] using hemp
  · exact h

theorem normalize_wf {l : List Nat} (h : l ≠ []) : wf (normalize l) := by
  unfold normalize
  by_cases hcond : 1 < l.length ∧ l.headD 1 = 0
  · rw [if_pos hcond]
    by_cases hemp : (List.dropWhile (fun x => decide (x = 0)) l).isEmpty
    · rw [if_pos hemp]
      exact ⟨by simp, by simp⟩
    · rw [if_neg hemp]
      have hne : List.dropWhile (fun x => decide (x = 0)) l ≠ [] := by
        simpa [List.isEmpty_iff] using hemp
      refine ⟨hne, fun _ => ?_⟩
      have := List.head_dropWhile_not (fun x => decide (x = 0)) l hne
      rw [List.headD_eq_head? , List.head?_eq_head hne]
      simpa using this
  · rw [if_neg hcond]
    refine ⟨h, fun hlen => ?_⟩
    have : l.headD 1 ≠ 0 := by tauto
    cases l with
    | nil => simp at h
    | cons a t => simpa using this

theorem normalize_len_le {l : List Nat} (h : l ≠ []) :
    (normalize l).length ≤ l.length := by
  unfold normalize
  split
  · next hcond =>
      split
      · simp only [List.length_singleton]
        omega
      · exact (List.dropWhile_sublist _).length_le
  · omega

theorem normalize_len_lt {l : List Nat} (h1 : 1 < l.length) (h2 : l.headD 1 = 0) :
    (normalize l).length < l.length := by
  unfold normalize
  rw [if_pos ⟨h1, h2⟩]
  cases l with
  | nil => simp at h1
  | cons a t =>
      have ha : a = 0 := by simpa using h2
      subst ha
      have hdw : List.dropWhile (fun x => decide (x = 0)) (0 :: t) =
          List.dropWhile (fun x => decide (x = 0)) t := by
        simp [List.dropWhile_cons]
      rw [hdw]
      split
      · simpa using h1
      · have := (List.dropWhile_sublist (l := t) (fun x => decide (x = 0))).length_le
        simp only [List.length_cons]
        omega

theorem wf_is_zero {l : List Nat} (hwf : wf l) (hz : is_zero l = true) : l = [0] := by
  obtain ⟨hne, hhead⟩ := hwf
  cases l with
  | nil => simp at hne
  | cons a t =>
      have ha : a = 0 := by simpa [is_zero] using hz
      subst ha
      cases t with
      | nil => rfl
      | cons b t2 =>
          have h1 := hhead (by simp)
          simp at h1

theorem horner_of_is_zero {F : Generic_GF} {l : List Nat} (hwf : wf l)
    (hz : is_zero l = true) (z : Nat) : horner F l z = 0 := by
  rw [wf_is_zero hwf hz]
  simp [horner, gf_add, gf_mul_zero_right]

theorem lead_ne_zero {l : List Nat} (hne : l ≠ []) (hz : is_zero l = false) :
    lead l ≠ 0 := by
  cases l with
  | nil => simp at hne
  | cons a t =>
      simp [is_zero] at hz
      simpa [lead] using hz

theorem lead_lt {l : List Nat} (hne : l ≠ []) (hb : bytes l) : lead l < 256 := by
  cases l with
  | nil => simp at hne
  | cons a t => exact hb a (List.mem_cons_self _ _)

theorem zipWith_gf_add_bytes :
    ∀ {u v : List Nat}, bytes u → bytes v → bytes (List.zipWith gf_add u v) := by
  intro u
  induction u with
  | nil => intro v _ _ x hx; simp at hx
  | cons a t ih =>
      intro v hu hv x hx
      cases v with
      | nil => simp at hx
      | cons b s =>
          rw [List.zipWith_cons_cons] at hx
          rcases List.mem_cons.mp hx with h | h
          · subst h
            exact xor_lt_256 (hu a (List.mem_cons_self _ _)) (hv b (List.mem_cons_self _ _))
          · exact ih (fun y hy => hu y (List.mem_cons_of_mem _ hy))
              (fun y hy => hv y (List.mem_cons_of_mem _ hy)) x h

theorem bytes_take {l : List Nat} (hb : bytes l) (n : Nat) : bytes (l.take n) :=
  fun x hx => hb x (List.mem_of_mem_take hx)

theorem bytes_drop {l : List Nat} (hb : bytes l) (n : Nat) : bytes (l.drop n) :=
  fun x hx => hb x (List.mem_of_mem_drop hx)

theorem bytes_append {u v : List Nat} (hu : bytes u) (hv : bytes v) :
    bytes (u ++ v) := by
  intro x hx
  rcases List.mem_append.mp hx with h | h
  · exact hu x h
  · exact hv x h

theorem bytes_replicate_zero (n : Nat) : bytes (List.replicate n 0) := by
  intro x hx
  have := List.eq_of_mem_replicate hx
  omega

theorem add_core_len {s l : List Nat} (h : s.length ≤ l.length) :
    (l.take (l.length - s.length) ++
      List.zipWith gf_add s (l.drop (l.length - s.length))).length = l.length := by
  rw [List.length_append, List.length_take, List.length_zipWith, List.length_drop]
  rw [inf_eq_min, inf_eq_min]
  omega

theorem add_core_horner {F : Generic_GF} (hF : good_field F) {z : Nat}
    (hz : z < 256) {s l : List Nat} (hs : bytes s) (hl : bytes l)
    (h : s.length ≤ l.length) :
    horner F (l.take (l.length - s.length) ++
      List.zipWith gf_add s (l.drop (l.length - s.length))) z =
    horner F l z ^^^ horner F s z := by
  have hdlen : (l.drop (l.length - s.length)).length = s.length := by
    rw [List.length_drop]; omega
  have hzlen : (List.zipWith gf_add s (l.drop (l.length - s.length))).length =
      s.length := by
    rw [List.length_zipWith, hdlen]; simp
  rw [horner_append hF hz (bytes_take hl _)
      (zipWith_gf_add_bytes hs (bytes_drop hl _)), hzlen,
    horner_zip hF hz hdlen.symm hs (bytes_drop hl _)]
  conv_rhs => rw [← List.take_append_drop (l.length - s.length) l]
  rw [horner_append hF hz (bytes_take hl _) (bytes_drop hl _), hdlen]
  rw [Nat.xor_assoc]
  congr 1
  exact Nat.xor_comm _ _

theorem add_poly_horner {F : Generic_GF} (hF : good_field F) {z : Nat}
    (hz : z < 256) {p q : List Nat} (hbp : bytes p) (hbq : bytes q)
    (hwp : wf p) (hwq : wf q) :
    horner F (add_poly p q) z = horner F p z ^^^ horner F q z := by
  unfold add_poly
  by_cases hzp : is_zero p
  · rw [if_pos hzp, horner_of_is_zero hwp hzp, Nat.zero_xor]
  rw [if_neg hzp]
  by_cases hzq : is_zero q
  · rw [if_pos hzq, horner_of_is_zero hwq hzq, Nat.xor_zero]
  rw [if_neg hzq]
  by_cases hlen : q.length < p.length
  · simp only [if_pos hlen, horner_normalize]
    rw [add_core_horner hF hz hbq hbp (by omega)]
  · simp only [if_neg hlen, horner_normalize]
    rw [add_core_horner hF hz hbp hbq (by omega), Nat.xor_comm]

theorem add_poly_bytes {p q : List Nat} (hbp : bytes p) (hbq : bytes q) :
    bytes (add_poly p q) := by
  unfold add_poly
  split
  · exact hbq
  split
  · exact hbp
  split
  · exact normalize_bytes (bytes_append (bytes_take hbp _)
      (zipWith_gf_add_bytes hbq (bytes_drop hbp _)))
  · exact normalize_bytes (bytes_append (bytes_take hbq _)
      (zipWith_gf_add_bytes hbp (bytes_drop hbq _)))

theorem add_poly_wf {p q : List Nat} (hwp : wf p) (hwq : wf q) :
    wf (add_poly p q) := by
  unfold add_poly
  split
  · exact hwq
  split
  · exact hwp
  split
  · next hlen =>
      apply normalize_wf
      have := add_core_len (s := q) (l := p) (by omega)
      intro hnil
      rw [hnil] at this
      simp at this
      exact hwp.1 (List.eq_nil_of_length_eq_zero this.symm)
  · next hlen =>
      apply normalize_wf
      have hle : p.length ≤ q.length := by omega
      have := add_core_len (s := p) (l := q) hle
      intro hnil
      rw [hnil] at this
      simp at this
      exact hwq.1 (List.eq_nil_of_length_eq_zero this.symm)

theorem mul_mono_horner {F : Generic_GF} (hF : good_field F) {z : Nat}
    (hz : z < 256) {c : Nat} (hc : c < 256) {p : List Nat} (hb : bytes p)
    (d : Nat) :
    horner F (mul_mono F p d c) z =
      (gf_mul F z ·)^[d] (gf_mul F (horner F p z) c) := by
  unfold mul_mono
  by_cases hc0 : c = 0
  · rw [if_pos hc0, hc0, gf_mul_zero_right, mulz_iter_zero]
    simp [horner, gf_add, gf_mul_zero_right]
  · rw [if_neg hc0, horner_normalize,
      horner_append hF hz (by
        intro x hx
        rcases List.mem_map.mp hx with ⟨y, _, hy⟩
        rw [← hy]
        exact mul_lt hF y c) (bytes_replicate_zero d),
      List.length_replicate, horner_replicate_zero, Nat.xor_zero,
      horner_map_mul hF hz hc p hb]

theorem mul_mono_bytes {F : Generic_GF} (hF : good_field F) (p : List Nat)
    (d c : Nat) : bytes (mul_mono F p d c) := by
  unfold mul_mono
  split
  · intro x hx; simp at hx; omega
  · apply normalize_bytes
    apply bytes_append
    · intro x hx
      rcases List.mem_map.mp hx with ⟨y, _, hy⟩
      rw [← hy]
      exact mul_lt hF y c
    · exact bytes_replicate_zero d

theorem mul_mono_wf {F : Generic_GF} {p : List Nat} (hwp : wf p) (d c : Nat) :
    wf (mul_mono F p d c) := by
  unfold mul_mono
  split
  · exact ⟨by simp, by simp⟩
  · apply normalize_wf
    intro hnil
    rw [List.append_eq_nil] at hnil
    exact hwp.1 (List.map_eq_nil_iff.mp hnil.1)

theorem mul_mono_of_lead_ne {F : Generic_GF} {p : List Nat}
    (hne : p ≠ []) {c : Nat} (hc : c ≠ 0)
    (hlead : gf_mul F (lead p) c ≠ 0) (d : Nat) :
    mul_mono F p d c = p.map (fun x => gf_mul F x c) ++ List.replicate d 0 := by
  unfold mul_mono
  rw [if_neg hc]
  apply normalize_id
  cases p with
  | nil => simp at hne
  | cons a t => simpa [lead] using hlead

/-! ## Product against a monic linear factor, and the generator polynomial -/

theorem lin_acc_length (F : Generic_GF) (c : Nat) :
    ∀ (a : List Nat) (carry : Nat), (lin_acc F c a carry).length = a.length + 1 := by
  intro a
  induction a with
  | nil => intro carry; rfl
  | cons a0 rest ih => intro carry; simp [lin_acc, ih]

theorem lin_acc_bytes {F : Generic_GF} (hF : good_field F) (c : Nat) :
    ∀ (a : List Nat) (carry : Nat), carry < 256 →
      bytes (lin_acc F c a carry) := by
  intro a
  induction a with
  | nil =>
      intro carry hc x hx
      simp [lin_acc] at hx
      omega
  | cons a0 rest ih =>
      intro carry hc x hx
      simp only [lin_acc] at hx
      rcases List.mem_cons.mp hx with h | h
      · subst h
        exact xor_lt_256 hc (mul_lt hF a0 1)
      · exact ih (gf_mul F a0 c) (mul_lt hF a0 c) x h

theorem conv_outer_lin (F : Generic_GF) (c : Nat) :
    ∀ (a pre : List Nat) (carry : Nat),
      conv_outer F (pre ++ carry :: List.replicate a.length 0) a [1, c] pre.length =
        pre ++ lin_acc F c a carry := by
  intro a
  induction a with
  | nil =>
      intro pre carry
      rfl
  | cons a0 rest ih =>
      intro pre carry
      have hset1 : (pre ++ carry :: 0 :: List.replicate rest.length 0).set pre.length
          ((pre ++ carry :: 0 :: List.replicate rest.length 0).getD pre.length 0 ^^^
            gf_mul F a0 1) =
          pre ++ (carry ^^^ gf_mul F a0 1) :: 0 :: List.replicate rest.length 0 := by
        rw [List.getD_append_right _ _ _ _ (Nat.le_refl _), Nat.sub_self]
        rw [List.set_append, if_neg (by omega), Nat.sub_self]
        rfl
      have hset2 : (pre ++ (carry ^^^ gf_mul F a0 1) :: 0 ::
            List.replicate rest.length 0).set (pre.length + 1)
          ((pre ++ (carry ^^^ gf_mul F a0 1) :: 0 ::
            List.replicate rest.length 0).getD (pre.length + 1) 0 ^^^ gf_mul F a0 c) =
          pre ++ (carry ^^^ gf_mul F a0 1) :: gf_mul F a0 c ::
            List.replicate rest.length 0 := by
        rw [List.getD_append_right _ _ _ _ (by omega),
          show pre.length + 1 - pre.length = 1 from by omega]
        rw [List.set_append, if_neg (by omega),
          show pre.length + 1 - pre.length = 1 from by omega]
        simp [Nat.zero_xor]
      calc conv_outer F (pre ++ carry :: List.replicate (a0 :: rest).length 0)
            (a0 :: rest) [1, c] pre.length
      
      _ = conv_outer F (pre ++ (carry ^^^ gf_mul F a0 1) :: gf_mul F a0 c ::
            List.replicate rest.length 0) rest [1, c] (pre.length + 1) := by
            simp only [conv_outer, conv_inner, List.length_cons, List.replicate_succ]
            rw [hset1, hset2]
      _ = pre ++ lin_acc F c (a0 :: rest) carry := by
            have hre : pre ++ (carry ^^^ gf_mul F a0 1) :: gf_mul F a0 c ::
                List.replicate rest.length 0 =
                (pre ++ [carry ^^^ gf_mul F a0 1]) ++ gf_mul F a0 c ::
                  List.replicate rest.length 0 := by
              simp
            have hlen : pre.length + 1 = (pre ++ [carry ^^^ gf_mul F a0 1]).length := by
              simp
            rw [hre, hlen, ih (pre ++ [carry ^^^ gf_mul F a0 1]) (gf_mul F a0 c)]
            simp [lin_acc]

theorem lin_acc_horner {F : Generic_GF} (hF : good_field F) {z c : Nat}
    (hz : z < 256) (hc : c < 256) :
    ∀ (a : List Nat) (carry : Nat), bytes a → carry < 256 →
      horner F (lin_acc F c a carry) z =
        gf_mul F (horner F a z) (gf_add z c) ^^^ (gf_mul F z ·)^[a.length] carry := by
  intro a
  induction a with
  | nil =>
      intro carry _ _
      simp [lin_acc, horner, gf_add, gf_mul_zero_right, gf_mul_zero_left, horner_nil]
  | cons a0 rest ih =>
      intro carry hb hcar
      have ha0 : a0 < 256 := hb a0 (List.mem_cons_self _ _)
      have hbr : bytes rest := fun x hx => hb x (List.mem_cons_of_mem _ hx)
      have hcar2 : carry ^^^ gf_mul F a0 1 < 256 :=
        xor_lt_256 hcar (mul_lt hF a0 1)
      have hstep : lin_acc F c (a0 :: rest) carry =
          [carry ^^^ gf_mul F a0 1] ++ lin_acc F c rest (gf_mul F a0 c) := by
        simp [lin_acc]
      rw [hstep, horner_append hF hz (by
          intro x hx
          simp at hx
          omega) (lin_acc_bytes hF c _ _ (mul_lt hF a0 c)),
        lin_acc_length,
        show horner F [carry ^^^ gf_mul F a0 1] z = carry ^^^ gf_mul F a0 1 from by
          simp [horner, gf_add, gf_mul_zero_right],
        ih (gf_mul F a0 c) hbr (mul_lt hF a0 c)]
      have hsplit : (gf_mul F z ·)^[rest.length + 1] (carry ^^^ gf_mul F a0 1) =
          (gf_mul F z ·)^[rest.length + 1] carry ^^^
            (gf_mul F z ·)^[rest.length + 1] (gf_mul F a0 1) :=
        mulz_iter_xor hF hz _ hcar (mul_lt hF a0 1)
      have hpair : (gf_mul F z ·)^[rest.length + 1] (gf_mul F a0 1) ^^^
            (gf_mul F z ·)^[rest.length] (gf_mul F a0 c) =
          gf_mul F ((gf_mul F z ·)^[rest.length] a0) (gf_add z c) := by
        rw [gf_mul_one hF ha0, Function.iterate_succ_apply,
          ← mulz_iter_xor hF hz rest.length (mul_lt hF z a0) (mul_lt hF a0 c),
          gf_mul_comm F z a0, ← mul_xor hF ha0 hz hc,
          mulz_iter_mul hF]
        rfl
      have hcons : horner F (a0 :: rest) z =
          (gf_mul F z ·)^[rest.length] a0 ^^^ horner F rest z := by
        have : a0 :: rest = [a0] ++ rest := rfl
        rw [this, horner_append hF hz (by
            intro x hx
            simp at hx
            omega) hbr,
          show horner F [a0] z = a0 from by simp [horner, gf_add, gf_mul_zero_right]]
      rw [hsplit, hcons, xor_mul hF (by
          unfold gf_add
          exact xor_lt_256 hz hc) (mulz_iter_lt hF z rest.length ha0)
          (horner_lt hF hbr z)]
      rw [xor_mix]
      rw [hpair]
      exact xor_rot _ _ _

theorem mul_poly_lin_horner {F : Generic_GF} (hF : good_field F) {z c : Nat}
    (hz : z < 256) (hc : c < 256) {p : List Nat} (hb : bytes p) (hw : wf p) :
    horner F (mul_poly F p [1, c]) z = gf_mul F (horner F p z) (gf_add z c) := by
  unfold mul_poly
  by_cases hzp : is_zero p
  · rw [if_pos (Or.inl hzp), horner_of_is_zero hw hzp]
    simp [horner, gf_add, gf_mul_zero_right, gf_mul_zero_left]
  · rw [if_neg (by
      intro hor
      rcases hor with h | h
      · exact hzp h
      · simp [is_zero] at h)]
    have hrep : p.length + [1, c].length - 1 = p.length + 1 := by simp
    have hconv : conv_outer F (0 :: List.replicate p.length 0) p [1, c] 0 =
        lin_acc F c p 0 := by
      have := conv_outer_lin F c p [] 0
      simpa using this
    rw [hrep, List.replicate_succ, hconv, horner_normalize,
      lin_acc_horner hF hz hc p 0 hb (by omega), mulz_iter_zero, Nat.xor_zero]

theorem generator_spec {F : Generic_GF} (hF : good_field F) :
    ∀ k, wf (generator F k) ∧ bytes (generator F k) ∧
      lead (generator F k) = 1 ∧ (generator F k).length = k + 1 := by
  intro k
  induction k with
  | zero =>
      have h0 : generator F 0 = [1] := rfl
      rw [h0]
      exact ⟨⟨by simp, by simp⟩, fun x hx => by simp at hx; omega, rfl, rfl⟩
  | succ d ih =>
      obtain ⟨hw, hb, hl, hlen⟩ := ih
      obtain ⟨g0, gt, hg⟩ := List.exists_cons_of_ne_nil hw.1
      have hg0 : g0 = 1 := by
        have := hl
        rw [hg] at this
        simpa [lead] using this
      have hzg : is_zero (generator F d) = false := by
        rw [hg, hg0]
        simp [is_zero]
      have hred : generator F (d + 1) =
          normalize (lin_acc F (gf_exp F (d + F.generator_base)) (generator F d) 0) := by
        show mul_poly F (generator F d) [1, gf_exp F (d + F.generator_base)] = _
        unfold mul_poly
        rw [if_neg (by
          intro hor
          rcases hor with h | h
          · rw [hzg] at h; simp at h
          · simp [is_zero] at h)]
        congr 1
        have hrep : (generator F d).length + [1, gf_exp F (d + F.generator_base)].length - 1 =
            (generator F d).length + 1 := by simp
        have hconv : conv_outer F (0 :: List.replicate (generator F d).length 0)
            (generator F d) [1, gf_exp F (d + F.generator_base)] 0 =
            lin_acc F (gf_exp F (d + F.generator_base)) (generator F d) 0 := by
          have := conv_outer_lin F (gf_exp F (d + F.generator_base)) (generator F d) [] 0
          simpa using this
        rw [hrep, List.replicate_succ, hconv]
      have hhead : lin_acc F (gf_exp F (d + F.generator_base)) (generator F d) 0 =
          (0 ^^^ gf_mul F g0 1) ::
            lin_acc F (gf_exp F (d + F.generator_base)) gt (gf_mul F g0 (gf_exp F (d + F.generator_base))) := by
        rw [hg]
        rfl
      have hone : (0 : Nat) ^^^ gf_mul F g0 1 = 1 := by
        rw [hg0, gf_one_mul hF (by omega), Nat.zero_xor]
      have hnorm : normalize (lin_acc F (gf_exp F (d + F.generator_base))
          (generator F d) 0) = lin_acc F (gf_exp F (d + F.generator_base))
          (generator F d) 0 := by
        apply normalize_id
        rw [hhead, hone]
        simp
      rw [hred, hnorm]
      refine ⟨⟨?_, ?_⟩, ?_, ?_, ?_⟩
      · rw [hhead]; simp
      · intro _
        rw [hhead, hone]
        simp
      · exact lin_acc_bytes hF _ _ _ (by omega)
      · rw [hhead, hone]
        simp [lead]
      · rw [lin_acc_length, hlen]

theorem generator_is_zero_false {F : Generic_GF} (hF : good_field F) (k : Nat) :
    is_zero (generator F k) = false := by
  obtain ⟨hw, _, hl, _⟩ := generator_spec hF k
  obtain ⟨g0, gt, hg⟩ := List.exists_cons_of_ne_nil hw.1
  have hg0 : g0 = 1 := by
    have := hl
    rw [hg] at this
    simpa [lead] using this
  rw [hg, hg0]
  simp [is_zero]

theorem generator_root {F : Generic_GF} (hF : good_field F) {i R : Nat}
    (hiR : i < R) (hidx : i + F.generator_base < 256) :
    horner F (generator F R) (gf_exp F (i + F.generator_base)) = 0 := by
  have hz : gf_exp F (i + F.generator_base) < 256 := exp_lt_256 hF _
  induction R with
  | zero => omega
  | succ d ih =>
      have hgen := generator_spec hF d
      have heval := mul_poly_lin_horner hF hz (exp_lt_256 hF (d + F.generator_base))
        hgen.2.1 hgen.1
      show horner F (mul_poly F (generator F d) [1, gf_exp F (d + F.generator_base)]) _ = 0
      rw [heval]
      by_cases hid : i = d
      · subst hid
        rw [show gf_add (gf_exp F (i + F.generator_base))
            (gf_exp F (i + F.generator_base)) = 0 from by
          unfold gf_add
          exact Nat.xor_self _]
        exact gf_mul_zero_right F _
      · rw [ih (by omega)]
        exact gf_mul_zero_left F _

/-! ## Polynomial long division: strict decrease, loop exit, and invariant -/

theorem headD_zipWith_gf_add {u v : List Nat} (hu : u ≠ []) (hv : v ≠ []) :
    (List.zipWith gf_add u v).headD 1 = gf_add (u.headD 0) (v.headD 0) := by
  cases u with
  | nil => simp at hu
  | cons a t =>
      cases v with
      | nil => simp at hv
      | cons b s => rfl

theorem divide_step_dec {F : Generic_GF} (hF : good_field F) {g r : List Nat}
    (hwg : wf g) (hbg : bytes g) (hglen : 2 ≤ g.length) (hgz : is_zero g = false)
    (hwr : wf r) (hbr : bytes r) (hrz : is_zero r = false)
    (hdeg : degree g ≤ degree r) :
    (add_poly r (mul_mono F g (degree r - degree g)
      (gf_mul F (lead r) (gf_inv F (lead g))))).length < r.length := by
  have hlg : lead g ≠ 0 := lead_ne_zero hwg.1 hgz
  have hlr : lead r ≠ 0 := lead_ne_zero hwr.1 hrz
  have hlg2 : lead g < 256 := lead_lt hwg.1 hbg
  have hlr2 : lead r < 256 := lead_lt hwr.1 hbr
  have hinv1 : 1 ≤ gf_inv F (lead g) := inv_pos hF (lead g)
  have hscale1 : 1 ≤ gf_mul F (lead r) (gf_inv F (lead g)) :=
    mul_pos hF hlr (by omega)
  have hscale : gf_mul F (lead r) (gf_inv F (lead g)) ≠ 0 := by omega
  have hterml : gf_mul F (lead g) (gf_mul F (lead r) (gf_inv F (lead g))) = lead r :=
    scale_cancel hF (by omega) hlg2 hlr2
  have htermne : gf_mul F (lead g) (gf_mul F (lead r) (gf_inv F (lead g))) ≠ 0 := by
    rw [hterml]; exact hlr
  have hterm := mul_mono_of_lead_ne (F := F) hwg.1 hscale htermne (degree r - degree g)
  have hglr : g.length ≤ r.length := by
    have h1 : 1 ≤ g.length := List.length_pos.mpr hwg.1
    have h2 : 1 ≤ r.length := List.length_pos.mpr hwr.1
    unfold degree at hdeg
    omega
  have htermlen : (mul_mono F g (degree r - degree g)
      (gf_mul F (lead r) (gf_inv F (lead g)))).length = r.length := by
    rw [hterm, List.length_append, List.length_map, List.length_replicate]
    unfold degree
    omega
  have htermne2 : mul_mono F g (degree r - degree g)
      (gf_mul F (lead r) (gf_inv F (lead g))) ≠ [] := by
    intro hnil
    rw [hnil] at htermlen
    have : 1 ≤ r.length := List.length_pos.mpr hwr.1
    simp at htermlen
    omega
  have htermlead : (mul_mono F g (degree r - degree g)
      (gf_mul F (lead r) (gf_inv F (lead g)))).headD 0 = lead r := by
    rw [hterm]
    obtain ⟨g0, gt, hg⟩ := List.exists_cons_of_ne_nil hwg.1
    rw [hg]
    simp only [List.map_cons, List.cons_append, List.headD_cons]
    rw [show g0 = lead g from by rw [hg]; rfl]
    exact hterml
  have hzterm : is_zero (mul_mono F g (degree r - degree g)
      (gf_mul F (lead r) (gf_inv F (lead g)))) = false := by
    unfold is_zero
    obtain ⟨t0, tt, ht⟩ := List.exists_cons_of_ne_nil htermne2
    rw [ht]
    rw [ht] at htermlead
    simp only [List.headD_cons] at htermlead ⊢
    rw [htermlead]
    simpa using hlr
  have hzhead : (List.zipWith gf_add r (mul_mono F g (degree r - degree g)
      (gf_mul F (lead r) (gf_inv F (lead g))))).headD 1 = 0 := by
    rw [headD_zipWith_gf_add hwr.1 htermne2, htermlead]
    unfold gf_add
    rw [show r.headD 0 = lead r from rfl]
    exact Nat.xor_self _
  have hziplen : (List.zipWith gf_add r (mul_mono F g (degree r - degree g)
      (gf_mul F (lead r) (gf_inv F (lead g))))).length = r.length := by
    rw [List.length_zipWith, htermlen]
    simp
  unfold add_poly
  rw [if_neg (by rw [hrz]; simp), if_neg (by rw [hzterm]; simp)]
  rw [if_neg (by rw [htermlen]; omega), if_neg (by rw [htermlen]; omega)]
  show (normalize ((mul_mono F g (degree r - degree g)
      (gf_mul F (lead r) (gf_inv F (lead g)))).take
        ((mul_mono F g (degree r - degree g)
          (gf_mul F (lead r) (gf_inv F (lead g)))).length - r.length) ++
      List.zipWith gf_add r ((mul_mono F g (degree r - degree g)
        (gf_mul F (lead r) (gf_inv F (lead g)))).drop
        ((mul_mono F g (degree r - degree g)
          (gf_mul F (lead r) (gf_inv F (lead g)))).length - r.length)))).length <
    r.length
  have hld : (mul_mono F g (degree r - degree g)
      (gf_mul F (lead r) (gf_inv F (lead g)))).length - r.length = 0 := by
    rw [htermlen]; omega
  rw [hld]
  simp only [List.take_zero, List.drop_zero, List.nil_append]
  have hrlen2 : 2 ≤ r.length := by
    unfold degree at hdeg
    omega
  have hlt := normalize_len_lt (l := List.zipWith gf_add r (mul_mono F g
      (degree r - degree g) (gf_mul F (lead r) (gf_inv F (lead g)))))
    (by rw [hziplen]; omega) hzhead
  omega

theorem divide_loop_spec {F : Generic_GF} (hF : good_field F) {g : List Nat}
    (hwg : wf g) (hbg : bytes g) (hglen : 2 ≤ g.length) (hgz : is_zero g = false) :
    ∀ (fuel : Nat) (q r : List Nat), wf r → bytes r → r.length ≤ fuel →
      wf (divide_loop F g (gf_inv F (lead g)) fuel (q, r)).2 ∧
      bytes (divide_loop F g (gf_inv F (lead g)) fuel (q, r)).2 ∧
      (degree (divide_loop F g (gf_inv F (lead g)) fuel (q, r)).2 < degree g ∨
        is_zero (divide_loop F g (gf_inv F (lead g)) fuel (q, r)).2 = true) ∧
      (∀ z, z < 256 → horner F g z = 0 →
        horner F (divide_loop F g (gf_inv F (lead g)) fuel (q, r)).2 z =
          horner F r z) := by
  intro fuel
  induction fuel with
  | zero =>
      intro q r hwr hbr hfuel
      have : r ≠ [] := hwr.1
      have : 1 ≤ r.length := List.length_pos.mpr this
      omega
  | succ n ih =>
      intro q r hwr hbr hfuel
      rw [divide_loop]
      by_cases hcond : degree g ≤ degree r ∧ ¬ is_zero r
      · rw [if_pos hcond]
        rw [show divide_step F g (gf_inv F (lead g)) (q, r) =
          (add_poly q (build_monomial F (degree r - degree g)
            (gf_mul F (lead r) (gf_inv F (lead g)))),
           add_poly r (mul_mono F g (degree r - degree g)
            (gf_mul F (lead r) (gf_inv F (lead g))))) from rfl]
        have hrz : is_zero r = false := by
          rcases hcond with ⟨_, h⟩
          simpa using h
        have hstep := divide_step_dec hF hwg hbg hglen hgz hwr hbr hrz hcond.1
        have hwterm := mul_mono_wf (F := F) hwg (degree r - degree g)
          (gf_mul F (lead r) (gf_inv F (lead g)))
        have hbterm := mul_mono_bytes hF g (degree r - degree g)
          (gf_mul F (lead r) (gf_inv F (lead g)))
        have hwr2 := add_poly_wf hwr hwterm
        have hbr2 := add_poly_bytes hbr hbterm
        have hres := ih (add_poly q (build_monomial F (degree r - degree g)
            (gf_mul F (lead r) (gf_inv F (lead g)))))
          (add_poly r (mul_mono F g (degree r - degree g)
            (gf_mul F (lead r) (gf_inv F (lead g))))) hwr2 hbr2 (by omega)
        refine ⟨hres.1, hres.2.1, hres.2.2.1, ?_⟩
        intro z hz hgr
        rw [hres.2.2.2 z hz hgr]
        rw [add_poly_horner hF hz hbr hbterm hwr hwterm,
          mul_mono_horner hF hz (mul_lt hF (lead r) (gf_inv F (lead g))) hbg,
          hgr, gf_mul_zero_left, mulz_iter_zero, Nat.xor_zero]
      · rw [if_neg hcond]
        refine ⟨hwr, hbr, ?_, fun z _ _ => rfl⟩
        by_cases hz : is_zero r = true
        · right; exact hz
        · left
          by_contra hge
          push_neg at hge
          exact hcond ⟨hge, hz⟩

/-! ## Structure of a successful encode -/

theorem write_parity (data : List Nat) (db ec : Nat) (rem : List Nat)
    (hlen : data.length = db + ec) (hrem : rem.length ≤ ec) :
    write_at (write_at data db (List.replicate (ec - rem.length) 0))
      (db + (ec - rem.length)) rem =
      data.take db ++ (List.replicate (ec - rem.length) 0 ++ rem) := by
  unfold write_at
  have htdb : (data.take db).length = db := by
    rw [List.length_take, inf_eq_min]
    omega
  have hpre : (data.take db ++ List.replicate (ec - rem.length) 0).length =
      db + (ec - rem.length) := by
    rw [List.length_append, htdb, List.length_replicate]
  rw [List.length_replicate]
  have htake : (data.take db ++ List.replicate (ec - rem.length) 0 ++
      data.drop (db + (ec - rem.length))).take (db + (ec - rem.length)) =
      data.take db ++ List.replicate (ec - rem.length) 0 :=
    List.take_left' hpre
  have hdroplen : (data.take db ++ List.replicate (ec - rem.length) 0 ++
      data.drop (db + (ec - rem.length))).length = data.length := by
    rw [List.length_append, hpre, List.length_drop]
    omega
  have hdrop : (data.take db ++ List.replicate (ec - rem.length) 0 ++
      data.drop (db + (ec - rem.length))).drop
        (db + (ec - rem.length) + rem.length) = [] := by
    apply List.drop_eq_nil_of_le
    rw [hdroplen]
    omega
  rw [htake, hdrop, List.append_nil, List.append_assoc]

theorem encode_spec {F : Generic_GF} (hF : good_field F) {data : List Nat}
    {ec : Nat} (hb : bytes data) (hec : ec ≠ 0) (hlen : ec < data.length) :
    ∃ rem : List Nat, wf rem ∧ bytes rem ∧ rem.length ≤ ec ∧
      encode F data ec = .ok (data.take (data.length - ec) ++
        (List.replicate (ec - rem.length) 0 ++ rem)) ∧
      (∀ z, z < 256 → horner F (generator F ec) z = 0 →
        horner F rem z =
          (gf_mul F z ·)^[ec] (horner F (data.take (data.length - ec)) z)) ∧
      rem = (divide_loop F (generator F ec) (gf_inv F (lead (generator F ec)))
        (mul_mono F (normalize (data.take (data.length - ec))) ec 1).length
        ([0], mul_mono F (normalize (data.take (data.length - ec))) ec 1)).2 := by
  have htake_len : (data.take (data.length - ec)).length = data.length - ec := by
    rw [List.length_take, inf_eq_min]
    omega
  have htake_ne : data.take (data.length - ec) ≠ [] := by
    intro h
    rw [h] at htake_len
    simp at htake_len
    omega
  have hinfo_wf : wf (normalize (data.take (data.length - ec))) :=
    normalize_wf htake_ne
  have hinfo_b : bytes (normalize (data.take (data.length - ec))) :=
    normalize_bytes (bytes_take hb _)
  have hinfo2_wf : wf (mul_mono F (normalize (data.take (data.length - ec))) ec 1) :=
    mul_mono_wf hinfo_wf ec 1
  have hinfo2_b : bytes (mul_mono F (normalize (data.take (data.length - ec))) ec 1) :=
    mul_mono_bytes hF _ ec 1
  obtain ⟨hgw, hgb, hgl, hglen2⟩ := generator_spec hF ec
  have hgz := generator_is_zero_false hF ec
  have hglen3 : 2 ≤ (generator F ec).length := by rw [hglen2]; omega
  have hloop := divide_loop_spec hF hgw hgb hglen3 hgz
    (mul_mono F (normalize (data.take (data.length - ec))) ec 1).length [0]
    (mul_mono F (normalize (data.take (data.length - ec))) ec 1)
    hinfo2_wf hinfo2_b (Nat.le_refl _)
  refine ⟨(divide_loop F (generator F ec) (gf_inv F (lead (generator F ec)))
    (mul_mono F (normalize (data.take (data.length - ec))) ec 1).length
    ([0], mul_mono F (normalize (data.take (data.length - ec))) ec 1)).2,
    hloop.1, hloop.2.1, ?_, ?_, ?_, rfl⟩
  · rcases hloop.2.2.1 with hdeg | hzero
    · unfold degree at hdeg
      rw [hglen2] at hdeg
      have := List.length_pos.mpr hloop.1.1
      omega
    · rw [wf_is_zero hloop.1 hzero]
      simp
      omega
  · have hdiv : divide F (mul_mono F (normalize (data.take (data.length - ec))) ec 1)
        (generator F ec) = .ok (divide_loop F (generator F ec)
          (gf_inv F (lead (generator F ec)))
          (mul_mono F (normalize (data.take (data.length - ec))) ec 1).length
          ([0], mul_mono F (normalize (data.take (data.length - ec))) ec 1)) := by
      unfold divide
      rw [if_neg (by rw [hgz]; simp), if_neg (by rw [hgl]; simp)]
    have henc : encode F data ec = match divide F
        (mul_mono F (normalize (data.take (data.length - ec))) ec 1)
        (generator F ec) with
      | .error e => .error e
      | .ok qr => .ok (write_at (write_at data (data.length - ec)
          (List.replicate (ec - qr.2.length) 0))
          (data.length - ec + (ec - qr.2.length)) qr.2) := by
      unfold encode
      rw [if_neg hec, if_neg (by omega)]
    rw [henc, hdiv]
    simp only []
    have hremlen : (divide_loop F (generator F ec)
        (gf_inv F (lead (generator F ec)))
        (mul_mono F (normalize (data.take (data.length - ec))) ec 1).length
        ([0], mul_mono F (normalize (data.take (data.length - ec))) ec 1)).2.length
        ≤ ec := by
      rcases hloop.2.2.1 with hdeg | hzero
      · unfold degree at hdeg
        rw [hglen2] at hdeg
        have := List.length_pos.mpr hloop.1.1
        omega
      · rw [wf_is_zero hloop.1 hzero]
        simp
        omega
    rw [write_parity data (data.length - ec) ec _ (by omega) hremlen]
  · intro z hz hroot
    rw [hloop.2.2.2 z hz hroot,
      mul_mono_horner hF hz (by omega) hinfo_b ec,
      gf_mul_one hF (horner_lt hF hinfo_b z), horner_normalize]

/-! ## The three-case evaluate_at agrees with plain Horner evaluation -/

theorem foldl_const_step (F : Generic_GF) :
    ∀ (t : List Nat) (acc : Nat),
      t.foldl (fun r c => gf_add (gf_mul F 0 r) c) acc = t.getLastD acc := by
  intro t
  induction t with
  | nil => intro acc; rfl
  | cons c s ih =>
      intro acc
      rw [List.foldl_cons, List.getLastD_cons,
        show gf_add (gf_mul F 0 acc) c = c from by
          simp [gf_add, gf_mul_zero_left]]
      exact ih c

theorem getD_last_eq_getLastD :
    ∀ l : List Nat, l.getD (l.length - 1) 0 = l.getLastD 0 := by
  intro l
  induction l with
  | nil => rfl
  | cons h t ih =>
      cases t with
      | nil => rfl
      | cons x t2 =>
          rw [List.getLastD_cons]
          have : (h :: x :: t2).getD ((h :: x :: t2).length - 1) 0 =
              (x :: t2).getD ((x :: t2).length - 1) 0 := by
            simp [List.getD_cons_succ]
          rw [this, ih, List.getLastD_cons, List.getLastD_cons]

theorem horner_at_zero (F : Generic_GF) (l : List Nat) :
    horner F l 0 = const_coeff l := by
  cases l with
  | nil => rfl
  | cons h t =>
      rw [horner_cons, foldl_const_step]
      unfold const_coeff
      rw [getD_last_eq_getLastD, List.getLastD_cons]

theorem foldl_one_step {F : Generic_GF} (hF : good_field F) :
    ∀ (l : List Nat) (acc : Nat), bytes l → acc < 256 →
      l.foldl (fun r c => gf_add (gf_mul F 1 r) c) acc =
        l.foldl (fun r c => gf_add r c) acc := by
  intro l
  induction l with
  | nil => intro acc _ _; rfl
  | cons c t ih =>
      intro acc hb hacc
      have hc : c < 256 := hb c (List.mem_cons_self _ _)
      rw [List.foldl_cons, List.foldl_cons,
        show gf_add (gf_mul F 1 acc) c = gf_add acc c from by
          rw [gf_one_mul hF hacc]]
      exact ih _ (fun x hx => hb x (List.mem_cons_of_mem _ hx))
        (xor_lt_256 hacc hc)

theorem evaluate_at_eq_horner {F : Generic_GF} (hF : good_field F)
    {l : List Nat} (hb : bytes l) (a : Nat) :
    evaluate_at F l a = horner F l a := by
  unfold evaluate_at
  by_cases ha0 : a = 0
  · rw [if_pos ha0, ha0, horner_at_zero]
  rw [if_neg ha0]
  by_cases ha1 : a = 1
  · rw [if_pos ha1, ha1]
    unfold horner
    rw [foldl_one_step hF l 0 hb (by omega)]
  rw [if_neg ha1]
  cases l with
  | nil => rfl
  | cons h t =>
      rw [horner_cons]

/-! ## Decode returns unchanged when every syndrome vanishes -/

theorem decode_of_syndromes_zero (F : Generic_GF) (received : List Nat) (ec : Nat)
    (hne : received ≠ [])
    (h : ∀ i, i < ec →
      evaluate_at F (normalize received) (gf_exp F (i + F.generator_base)) = 0) :
    decode F received ec = .ok received := by
  have hemp : received.isEmpty = false := by
    cases received with
    | nil => exact absurd rfl hne
    | cons a t => rfl
  have hall : (syndrome_values F (normalize received) ec).all (· = 0) = true := by
    rw [List.all_eq_true]
    intro x hx
    rcases List.mem_map.mp hx with ⟨i, hi, rfl⟩
    simpa using h i (List.mem_range.mp hi)
  simp only [decode, hemp, Bool.false_eq_true, if_false, hall, if_true]

/-! ## Every syndrome of a freshly encoded codeword vanishes -/

theorem encoded_syndromes_zero {F : Generic_GF} (hF : good_field F)
    {data : List Nat} {ec : Nat} (hb : bytes data) (hdl : 1 ≤ data.length)
    (hec : 1 ≤ ec) (hbound : data.length + ec ≤ 255) :
    ∃ cw : List Nat,
      encode F (data ++ List.replicate ec 0) ec = .ok cw ∧
      cw.take data.length = data ∧
      cw.length = data.length + ec ∧ bytes cw ∧
      (∀ i, i < ec →
        evaluate_at F (normalize cw) (gf_exp F (i + F.generator_base)) = 0) := by
  have hblen : (data ++ List.replicate ec 0).length = data.length + ec := by
    simp
  have hbbytes : bytes (data ++ List.replicate ec 0) :=
    bytes_append hb (bytes_replicate_zero ec)
  have hlt : ec < (data ++ List.replicate ec 0).length := by rw [hblen]; omega
  obtain ⟨rem, hwrem, hbrem, hremlen, henc, hhorner, _⟩ :=
    encode_spec hF hbbytes (by omega) hlt
  have hdb : (data ++ List.replicate ec 0).length - ec = data.length := by
    rw [hblen]; omega
  have htake : List.take data.length (data ++ List.replicate ec 0) = data :=
    List.take_left' rfl
  rw [hdb, htake] at henc hhorner
  refine ⟨data ++ (List.replicate (ec - rem.length) 0 ++ rem), henc, ?_, ?_, ?_, ?_⟩
  · exact List.take_left' rfl
  · simp
    omega
  · exact bytes_append hb (bytes_append (bytes_replicate_zero _) hbrem)
  · intro i hi
    have hidx : i + F.generator_base < 256 := by
      have hbase : F.generator_base ≤ 1 := hF.2.1
      omega
    have hz : gf_exp F (i + F.generator_base) < 256 := exp_lt_256 hF _
    have hroot := generator_root hF hi hidx
    have hparlen : (List.replicate (ec - rem.length) 0 ++ rem).length = ec := by
      simp
      omega
    have hparbytes : bytes (List.replicate (ec - rem.length) 0 ++ rem) :=
      bytes_append (bytes_replicate_zero _) hbrem
    rw [evaluate_at_eq_horner hF
      (normalize_bytes (bytes_append hb hparbytes)) _, horner_normalize,
      horner_append hF hz hb hparbytes, hparlen,
      horner_append hF hz (bytes_replicate_zero _) hbrem,
      horner_replicate_zero, mulz_iter_zero, Nat.zero_xor,
      hhorner _ hz hroot]
    exact Nat.xor_self _

end RS
namespace RS

/-! ## Claim theorems -/

set_option maxRecDepth 10000 in
/-- C3: with the Data Matrix field, encoding the 3-byte data
`[142, 164, 186]` with `ec_len = 5` writes exactly the parity bytes
`[114, 25, 5, 88, 102]` into positions `[3, 8)` of the buffer. -/
theorem encode_data_matrix_known_vector :
    encode GF_DM [142, 164, 186, 0, 0, 0, 0, 0] 5 =
      .ok [142, 164, 186, 114, 25, 5, 88, 102] := by rfl

/-- C2: for every byte data sequence of positive length and every
`ec_len ≥ 1` within the codeword bound of the field, encoding
`data ++ zeros(ec_len)` and then decoding the uncorrupted result with the
same `ec_len` succeeds and leaves the data region exactly equal to the
original data (the decode is a no-op on the whole buffer). -/
theorem round_trip_zero_corruption {F : Generic_GF} (hF : good_field F)
    {data : List Nat} {ec : Nat} (hb : bytes data) (hdl : 1 ≤ data.length)
    (hec : 1 ≤ ec) (hbound : data.length + ec ≤ 255) :
    ∃ cw : List Nat, encode F (data ++ List.replicate ec 0) ec = .ok cw ∧
      decode F cw ec = .ok cw ∧ cw.take data.length = data := by
  obtain ⟨cw, henc, htake, hlencw, _, hsynd⟩ :=
    encoded_syndromes_zero hF hb hdl hec hbound
  have hne : cw ≠ [] := by
    intro hnil
    rw [hnil] at hlencw
    simp at hlencw
    omega
  exact ⟨cw, henc, decode_of_syndromes_zero F cw ec hne hsynd, htake⟩

/-- C4: for every byte buffer and every accepted `ec_len` (nonzero, with
a nonempty data region), encode succeeds and mutates only the parity
region: the data region is unchanged and the length is preserved. -/
theorem encode_preserves_data_region {F : Generic_GF} (hF : good_field F)
    {buffer : List Nat} {ec : Nat} (hb : bytes buffer) (hec : 1 ≤ ec)
    (hlen : ec < buffer.length) :
    ∃ out : List Nat, encode F buffer ec = .ok out ∧
      out.length = buffer.length ∧
      out.take (buffer.length - ec) = buffer.take (buffer.length - ec) := by
  obtain ⟨rem, _, _, hremlen, henc, _, _⟩ := encode_spec hF hb (by omega) hlen
  have htl : (buffer.take (buffer.length - ec)).length = buffer.length - ec := by
    rw [List.length_take, inf_eq_min]
    omega
  refine ⟨_, henc, ?_, List.take_left' htl⟩
  rw [List.length_append, List.length_append, htl, List.length_replicate]
  omega

/-- C5: decoding a nonempty buffer whose `ec_len` syndrome evaluations
are all zero (a valid codeword; codewords are nonempty) returns without
error and leaves the buffer unchanged, and decoding such a buffer twice
gives the same result as decoding it once. -/
theorem decode_valid_codeword_noop (F : Generic_GF) (received : List Nat)
    (ec : Nat) (hne : received ≠ [])
    (h : ∀ i, i < ec →
      evaluate_at F (normalize received) (gf_exp F (i + F.generator_base)) = 0) :
    decode F received ec = .ok received ∧
      (decode F received ec).bind (fun b => decode F b ec) =
        decode F received ec := by
  have h1 := decode_of_syndromes_zero F received ec hne h
  refine ⟨h1, ?_⟩
  rw [h1]
  exact h1

/-- C6: encode fails exactly when `ec_len = 0` or the data region would
be empty (`buffer.length ≤ ec_len`); in every other case it returns
normally.  Both failing checks precede any buffer write in the source,
so a failing call leaves the buffer untouched. -/
theorem encode_error_iff {F : Generic_GF} (hF : good_field F)
    (buffer : List Nat) (ec : Nat) (hb : bytes buffer) :
    (∃ e, encode F buffer ec = .error e) ↔ (ec = 0 ∨ buffer.length ≤ ec) := by
  constructor
  · rintro ⟨e, he⟩
    by_contra hnot
    push_neg at hnot
    obtain ⟨rem, _, _, _, henc, _, _⟩ :=
      encode_spec hF hb hnot.1 (by omega)
    rw [henc] at he
    simp at he
  · intro hor
    by_cases h0 : ec = 0
    · exact ⟨"No error correction bytes", by unfold encode; rw [if_pos h0]⟩
    · have h : buffer.length ≤ ec := by tauto
      exact ⟨"No data bytes provided", by
        unfold encode
        rw [if_neg h0, if_pos h]⟩

/-- C7: `get_coefficient` is a bounds-checked access: a requested degree
outside `[0, degree]` is detected (the read yields `undefined`, modelled
`none`) rather than producing a coefficient value, and an in-range
degree yields a value. -/
theorem get_coefficient_bounds_checked (l : List Nat) (d : Int) :
    ((d < 0 ∨ (l.length : Int) - 1 < d) → get_coefficient l d = none) ∧
    (0 ≤ d → d ≤ (l.length : Int) - 1 → (get_coefficient l d).isSome = true) := by
  unfold get_coefficient
  constructor
  · intro hout
    rw [if_neg (by omega)]
  · intro h1 h2
    rw [if_pos (by omega)]
    rfl

set_option maxRecDepth 10000 in
/-- C8 (counterexample): for all-zero data both canonical fields produce
all-zero parity, so the two encoded buffers (hence their parity regions)
coincide, refuting the claim that the parity regions always differ. -/
theorem zero_data_parity_coincides :
    encode GF_DM [0, 0] 1 = .ok [0, 0] ∧ encode GF_QR [0, 0] 1 = .ok [0, 0] := by
  exact ⟨rfl, rfl⟩

set_option maxRecDepth 10000 in
/-- C8 (amended): encoding identical byte data under the two canonical
fields always succeeds with identical data regions; the parity regions
can coincide (for example on all-zero data) but differ for some data,
e.g. `[142, 164, 186]` with `ec_len = 5`. -/
theorem encode_field_independence_amended :
    (∀ (data : List Nat) (ec : Nat), bytes data → 1 ≤ ec → ec < data.length →
      ∃ o1 o2, encode GF_DM data ec = .ok o1 ∧ encode GF_QR data ec = .ok o2 ∧
        o1.length = data.length ∧ o2.length = data.length ∧
        o1.take (data.length - ec) = o2.take (data.length - ec)) ∧
    encode GF_DM [142, 164, 186, 0, 0, 0, 0, 0] 5 ≠
      encode GF_QR [142, 164, 186, 0, 0, 0, 0, 0] 5 := by
  constructor
  · intro data ec hb h1 h2
    obtain ⟨rem1, _, _, hr1, henc1, _, _⟩ :=
      encode_spec dm_good hb (by omega) h2
    obtain ⟨rem2, _, _, hr2, henc2, _, _⟩ :=
      encode_spec qr_good hb (by omega) h2
    have htl : (data.take (data.length - ec)).length = data.length - ec := by
      rw [List.length_take, inf_eq_min]
      omega
    refine ⟨_, _, henc1, henc2, ?_, ?_, ?_⟩
    · rw [List.length_append, List.length_append, htl, List.length_replicate]
      omega
    · rw [List.length_append, List.length_append, htl, List.length_replicate]
      omega
    · rw [List.take_left' htl, List.take_left' htl]
  · intro h
    rw [show encode GF_DM [142, 164, 186, 0, 0, 0, 0, 0] 5 =
        Except.ok [142, 164, 186, 114, 25, 5, 88, 102] from rfl,
      show encode GF_QR [142, 164, 186, 0, 0, 0, 0, 0] 5 =
        Except.ok [142, 164, 186, 175, 254, 113, 247, 71] from rfl] at h
    simp at h

set_option maxRecDepth 10000 in
/-- C9 (counterexample): the `Generic_GF` constructor accepts a
degenerate primitive (0x100), and in the resulting field
`multiply(3, inverse(3))` is 0, not 1 — the claimed inverse law fails
for an arbitrary constructed field. -/
theorem inverse_fails_degenerate_primitive :
    1 ≤ 3 ∧ 3 < (mk_GF 0x100 256 1).size ∧
      gf_mul (mk_GF 0x100 256 1) 3 (gf_inv (mk_GF 0x100 256 1) 3) ≠ 1 := by
  refine ⟨by omega, by decide, by decide⟩

/-- C9 (amended): in each of the two canonical fields the library
constructs, every nonzero element `a` satisfies
`multiply(a, inverse(a)) = 1`. -/
theorem inverse_mul_cancel_canonical_fields :
    ∀ a, a < 256 → 1 ≤ a →
      gf_mul GF_DM a (gf_inv GF_DM a) = 1 ∧
      gf_mul GF_QR a (gf_inv GF_QR a) = 1 := by
  intro a ha ha1
  constructor
  · exact mul_inv_cancel dm_good ha1 ha
  · exact mul_inv_cancel qr_good ha1 ha

/-- C10: the parity written by encode depends only on the data region
and `ec_len`: two byte buffers of the same length whose data regions
agree encode to identical results, whatever the parity regions held
before the call. -/
theorem encode_depends_only_on_data_region {F : Generic_GF}
    (hF : good_field F) {b1 b2 : List Nat} {ec : Nat}
    (hb1 : bytes b1) (hb2 : bytes b2) (hlen : b1.length = b2.length)
    (hdata : b1.take (b1.length - ec) = b2.take (b2.length - ec)) :
    encode F b1 ec = encode F b2 ec := by
  by_cases h0 : ec = 0
  · unfold encode
    rw [if_pos h0, if_pos h0]
  by_cases h1 : b1.length ≤ ec
  · unfold encode
    rw [if_neg h0, if_neg h0, if_pos h1, if_pos (by omega)]
  · obtain ⟨rem1, _, _, hr1, henc1, _, heq1⟩ :=
      encode_spec hF hb1 h0 (by omega)
    obtain ⟨rem2, _, _, hr2, henc2, _, heq2⟩ :=
      encode_spec hF hb2 h0 (by omega)
    rw [henc1, henc2, heq1, heq2, hdata]


/-! ## Witnesses instantiating the hypothesis-bearing claim theorems -/

set_option maxRecDepth 10000 in
theorem round_trip_zero_corruption_witness :
    good_field GF_DM ∧ bytes [1, 2, 3] ∧ 1 ≤ ([1, 2, 3] : List Nat).length ∧
      1 ≤ 2 ∧ ([1, 2, 3] : List Nat).length + 2 ≤ 255 ∧
      (∃ cw : List Nat,
        encode GF_DM ([1, 2, 3] ++ List.replicate 2 0) 2 = .ok cw ∧
        decode GF_DM cw 2 = .ok cw ∧ cw.take ([1, 2, 3] : List Nat).length = [1, 2, 3]) :=
  ⟨dm_good, by decide, by decide, by decide, by decide,
    round_trip_zero_corruption dm_good (by decide) (by decide) (by decide) (by decide)⟩

set_option maxRecDepth 10000 in
theorem encode_preserves_data_region_witness :
    good_field GF_DM ∧ bytes [9, 8, 0] ∧ 1 ≤ 1 ∧ 1 < ([9, 8, 0] : List Nat).length ∧
      (∃ out : List Nat, encode GF_DM [9, 8, 0] 1 = .ok out ∧
        out.length = ([9, 8, 0] : List Nat).length ∧
        out.take (([9, 8, 0] : List Nat).length - 1) =
          ([9, 8, 0] : List Nat).take (([9, 8, 0] : List Nat).length - 1)) :=
  ⟨dm_good, by decide, by decide, by decide,
    encode_preserves_data_region dm_good (by decide) (by decide) (by decide)⟩

set_option maxRecDepth 10000 in
theorem decode_valid_codeword_noop_witness :
    ([0, 0] : List Nat) ≠ [] ∧
    (∀ i, i < 1 → evaluate_at GF_DM (normalize [0, 0])
        (gf_exp GF_DM (i + GF_DM.generator_base)) = 0) ∧
      decode GF_DM [0, 0] 1 = .ok [0, 0] ∧
      (decode GF_DM [0, 0] 1).bind (fun b => decode GF_DM b 1) =
        decode GF_DM [0, 0] 1 :=
  ⟨by decide, by decide,
    decode_valid_codeword_noop GF_DM [0, 0] 1 (by decide) (by decide)⟩

set_option maxRecDepth 10000 in
theorem encode_error_iff_witness :
    good_field GF_DM ∧ bytes [1, 2, 3] ∧
      ((∃ e, encode GF_DM [1, 2, 3] 1 = .error e) ↔
        (1 = 0 ∨ ([1, 2, 3] : List Nat).length ≤ 1)) :=
  ⟨dm_good, by decide, encode_error_iff dm_good [1, 2, 3] 1 (by decide)⟩

set_option maxRecDepth 10000 in
theorem get_coefficient_bounds_checked_witness :
    get_coefficient [7, 9] 5 = none ∧ (get_coefficient [7, 9] 1).isSome = true :=
  ⟨(get_coefficient_bounds_checked [7, 9] 5).1 (by decide),
    (get_coefficient_bounds_checked [7, 9] 1).2 (by decide) (by decide)⟩

set_option maxRecDepth 10000 in
theorem encode_field_independence_amended_witness :
    (bytes [5, 6] ∧ 1 ≤ 1 ∧ 1 < ([5, 6] : List Nat).length ∧
      (∃ o1 o2, encode GF_DM [5, 6] 1 = .ok o1 ∧ encode GF_QR [5, 6] 1 = .ok o2 ∧
        o1.length = ([5, 6] : List Nat).length ∧
        o2.length = ([5, 6] : List Nat).length ∧
        o1.take (([5, 6] : List Nat).length - 1) =
          o2.take (([5, 6] : List Nat).length - 1))) ∧
    encode GF_DM [142, 164, 186, 0, 0, 0, 0, 0] 5 ≠
      encode GF_QR [142, 164, 186, 0, 0, 0, 0, 0] 5 :=
  ⟨⟨by decide, by decide, by decide,
    encode_field_independence_amended.1 [5, 6] 1 (by decide) (by decide) (by decide)⟩,
    encode_field_independence_amended.2⟩

set_option maxRecDepth 10000 in
theorem inverse_mul_cancel_canonical_fields_witness :
    7 < 256 ∧ 1 ≤ 7 ∧ gf_mul GF_DM 7 (gf_inv GF_DM 7) = 1 ∧
      gf_mul GF_QR 7 (gf_inv GF_QR 7) = 1 :=
  ⟨by decide, by decide, inverse_mul_cancel_canonical_fields 7 (by decide) (by decide)⟩

set_option maxRecDepth 10000 in
theorem encode_depends_only_on_data_region_witness :
    good_field GF_DM ∧ bytes [3, 4, 7] ∧ bytes [3, 4, 250] ∧
      ([3, 4, 7] : List Nat).length = ([3, 4, 250] : List Nat).length ∧
      ([3, 4, 7] : List Nat).take (([3, 4, 7] : List Nat).length - 1) =
        ([3, 4, 250] : List Nat).take (([3, 4, 250] : List Nat).length - 1) ∧
      encode GF_DM [3, 4, 7] 1 = encode GF_DM [3, 4, 250] 1 :=
  ⟨dm_good, by decide, by decide, by decide, by decide,
    encode_depends_only_on_data_region dm_good (by decide) (by decide)
      (by decide) (by decide)⟩

end RS
